import Mathlib

/-!
Verification of the robojules inspection engine core
(`src/logic/diff.rs`, `src/logic/asar.rs`).

Strings are modelled as `List Char`; Rust byte indices are recovered through
`Char.utf8Size`, mirroring the `byte_index_from_char_index` helper of egui's
`TextBuffer` that the source uses for all slicing.  Fallible operations
return `Option`/`Except`; a Rust panic is modelled as `none`.
External collaborators (serde_json, syntect, diffsitter, the filesystem)
enter as explicit parameters: byte buffers in, structured data out.
-/

namespace Robojules

/-! ### Byte/char index primitives (Rust `str` + egui `TextBuffer`) -/

/-- Byte length of a string (`str::len` in Rust). -/
def byteLen (s : List Char) : Nat := (s.map Char.utf8Size).sum

/-- egui `TextBuffer::byte_index_from_char_index`: walks `char_indices`,
returns the byte index of the given char index, or the total byte length
when the char index is past the end. -/
def byteIdxFromCharIdx : List Char → Nat → Nat
  | [], _ => 0
  | _ :: _, 0 => 0
  | c :: cs, i + 1 => c.utf8Size + byteIdxFromCharIdx cs i

/-- egui `TextBuffer::char_range`: the slice between the byte indices of two
char indices.  Both byte indices are char boundaries, so in the char model
the slice is exactly the chars with indices in `[a, b)`, clamped. -/
def charRange (s : List Char) (a b : Nat) : List Char := (s.take b).drop a

/-! ### Render fragments (`DiffRenderCommand`, `DiffRenderFragment`) -/

/-- `egui::Color32` (premultiplied RGBA). -/
structure Color32 where
  r : Nat
  g : Nat
  b : Nat
  a : Nat
deriving DecidableEq

/-- `Color32::TRANSPARENT`, the initial `last_color` of the highlight pass. -/
def Color32.TRANSPARENT : Color32 := ⟨0, 0, 0, 0⟩

/-- `DiffRenderCommand` from `diff.rs`. -/
inductive DiffRenderCommand where
  | SetHighlight (flag : Bool)
  | SetBold (flag : Bool)
  | SetItalic (flag : Bool)
  | SetUnderline (flag : Bool)
  | SetColor (c : Color32)
  | Text (s : List Char)
deriving DecidableEq

/-- `DiffRenderFragment(pub usize, pub DiffRenderCommand)`. -/
structure DiffRenderFragment where
  offset : Nat
  cmd : DiffRenderCommand
deriving DecidableEq

/-- The text carried by a fragment command (`Text` carries its segment,
every other command carries none). -/
def fragText : DiffRenderCommand → List Char
  | .Text s => s
  | _ => []

/-- Whether a command is a `Text` command. -/
def isTextCmd : DiffRenderCommand → Bool
  | .Text _ => true
  | _ => false

/-- Concatenation of all `Text` fragment contents of a fragment list. -/
def textConcat (l : List DiffRenderFragment) : List Char :=
  l.foldr (fun f acc => fragText f.cmd ++ acc) []

/-- The comparator of `raw_commands.sort_by(|a, b| a.0.cmp(&b.0))`. -/
def fragLE (a b : DiffRenderFragment) : Bool := decide (a.offset ≤ b.offset)

/-- Insert a fragment after every element whose offset is `≤` its own:
one step of a stable sort by offset. -/
def insertByOffset : List DiffRenderFragment → DiffRenderFragment → List DiffRenderFragment
  | [], f => [f]
  | g :: gs, f => if g.offset ≤ f.offset then g :: insertByOffset gs f else f :: g :: gs

/-- Rust `sort_by(|a, b| a.0.cmp(&b.0))` is a stable sort by offset; a
stable sort's output is uniquely determined by the comparator and input
order, so the left-fold insertion sort below computes it. -/
def sortByOffset (l : List DiffRenderFragment) : List DiffRenderFragment :=
  l.foldl insertByOffset []

/-- The sweep loop of `cleanup_commands`: cursor `pos`, emit the pending
`Text` slice before each command whose offset is ahead of the cursor, weave
the command in, and flush the remaining text at the end. -/
def cleanupGo (src : List Char) (size : Nat) :
    Nat → List DiffRenderFragment → List DiffRenderFragment
  | pos, [] =>
    if pos < size then [⟨pos, .Text (charRange src pos size)⟩] else []
  | pos, f :: rest =>
    if f.offset > pos then
      ⟨pos, .Text (charRange src pos f.offset)⟩ :: f :: cleanupGo src size f.offset rest
    else
      f :: cleanupGo src size pos rest

/-- `cleanup_commands` from `diff.rs`: stable-sort the raw events by offset
(Rust `sort_by` is a stable merge sort), then sweep.  `size` is the byte
length of the source. -/
def cleanup_commands (src : List Char) (raw : List DiffRenderFragment) :
    List DiffRenderFragment :=
  cleanupGo src (byteLen src) 0 (sortByOffset raw)

/-- Final cursor position of the sweep: the running maximum of the event
offsets, starting from `pos`. -/
def finalPos (pos : Nat) (l : List DiffRenderFragment) : Nat :=
  l.foldl (fun p f => max p f.offset) pos

/-! ### Tree differ data model (`FileState`, `FilesystemItem`, `FolderDiff`) -/

abbrev Path := List Char

/-- `FileState` from `diff.rs`. -/
inductive FileState where
  | Modified
  | Added
  | Removed
deriving DecidableEq

/-- `FilesystemItem` from `diff.rs` (a directory name is `none` only for
the synthetic root). -/
inductive FilesystemItem where
  | File (name : Path) (state : FileState)
  | Directory (name : Option Path) (children : List FilesystemItem)

/-- `type Directory = Vec<FilesystemItem>`. -/
abbrev Directory := List FilesystemItem

/-- `FolderDiff` from `diff.rs` (`PathBuf` roots modelled as paths). -/
structure FolderDiff where
  old : Path
  new : Path
  dir : Directory

/-- `format!("{}/{}", p, s)` joining below an optional parent path
(`none` is the synthetic root, contributing nothing). -/
def joinPre : Option Path → Path → Path
  | none, s => s
  | some p, s => p ++ '/' :: s

/-- `path.contains('/')`. -/
def hasSlash (s : Path) : Bool := s.contains '/'

/-- `path.split('/').next().unwrap()`: the segment before the first `/`. -/
def firstSegment (s : Path) : Path := s.takeWhile (fun c => !(c == '/'))

/-- `str::strip_prefix`: removes `p` from the front of `s`, or fails. -/
def stripPfx (p s : Path) : Option Path :=
  if p.isPrefixOf s then some (s.drop p.length) else none

/-- The `starts_with` filter of `unflatten_tree` (note: the filter tests the
bare prefix, no trailing slash appended). -/
def keyFilter (pfx : Option Path) (k : Path) : Bool :=
  match pfx with
  | some p => p.isPrefixOf k
  | none => true

/-- The map of `unflatten_tree`: `strip_prefix(prefix + "/").unwrap()`;
the `unwrap` panic is modelled as `none`. -/
def keyStrip (pfx : Option Path) (k : Path) : Option Path :=
  match pfx with
  | some p => stripPfx (p ++ ['/']) k
  | none => some k

/-- `HashMap::get` on the flat map (assoc-list model of the `HashMap`;
iteration order is left abstract by quantifying over the list order). -/
def lookupState (m : List (Path × FileState)) (k : Path) : Option FileState :=
  m.lookup k

/-- The duplicate-directory check of the `for dir in dirs` loop. -/
def hasDirNamed (children : Directory) (d : Path) : Bool :=
  children.any fun it =>
    match it with
    | .Directory name _ => name == some d
    | _ => false

mutual

/-- Body of `unflatten_tree` (fuelled; every call consumes one fuel, giving
plain structural recursion).  Each nested `unflatten_tree` call strictly
lengthens the prefix and needs a surviving key longer than the prefix, so
the call-chain length is bounded by the fuel chosen in `unflatten_tree`,
which is therefore never exhausted on runs the Rust original completes.
`none` models the `strip_prefix(..).unwrap()` panic. -/
def unflattenAux (m : List (Path × FileState)) : Nat → Option Path → Option Directory
  | 0, _ => none
  | fuel + 1, pfx =>
    match ((m.map Prod.fst).filter (keyFilter pfx)).mapM (keyStrip pfx) with
    | none => none
    | some items =>
      match unflattenDirLoop m fuel pfx ((items.filter hasSlash).map firstSegment) [] with
      | none => none
      | some childrenDirs =>
        some (childrenDirs ++
          (items.filter (fun s => !hasSlash s)).filterMap (fun f =>
            (lookupState m (joinPre pfx f)).map (fun st => FilesystemItem.File f st)))

/-- The `for dir in dirs` loop of `unflatten_tree`: skip names already
present, recurse into each new directory, push directories in first-seen
order. -/
def unflattenDirLoop (m : List (Path × FileState)) :
    Nat → Option Path → List Path → Directory → Option Directory
  | 0, _, _, _ => none
  | _ + 1, _, [], acc => some acc
  | fuel + 1, pfx, d :: ds, acc =>
    if hasDirNamed acc d then unflattenDirLoop m fuel pfx ds acc
    else
      match unflattenAux m fuel (some (joinPre pfx d)) with
      | none => none
      | some sub =>
        unflattenDirLoop m fuel pfx ds (acc ++ [FilesystemItem.Directory (some d) sub])

end

/-- The entries a recursion node at prefix `pfx` is responsible for: the
entries whose key passes the `starts_with` filter, with the key stripped
(`none` when some passing key fails the strip — the panic case). -/
def nodeEntries (m : List (Path × FileState)) (pfx : Option Path) :
    Option (List (Path × FileState)) :=
  (m.filter (fun e => keyFilter pfx e.1)).mapM
    (fun e => (keyStrip pfx e.1).map (fun s => (s, e.2)))

/-- Length of the longest key of the flat map (drives the fuel). -/
def maxKeyLen (m : List (Path × FileState)) : Nat :=
  (m.map fun e => e.1.length).foldr max 0

/-- Fuel that the recursion of `unflatten_tree` can never exhaust: the
nesting depth is at most `maxKeyLen m + 2` and each directory level steps
through at most `m.length` sibling names. -/
def unflattenFuel (m : List (Path × FileState)) : Nat :=
  (maxKeyLen m + 2) * (m.length + 2) + 1

/-- `unflatten_tree` from `diff.rs`.  `none` when the Rust original panics:
the `strip_prefix(...).unwrap()` fails on a key that passes the
`starts_with` filter but does not continue with a `/` at the boundary. -/
def unflatten_tree (m : List (Path × FileState)) (pfx : Option Path) : Option Directory :=
  unflattenAux m (unflattenFuel m) pfx

mutual

/-- All root-to-`File` paths of a produced listing, `/`-joined and paired
with their `FileState`: the observation that replays the nesting. -/
def flattenDir : Directory → List (Path × FileState)
  | [] => []
  | it :: rest => flattenItem it ++ flattenDir rest

/-- `flattenDir` on a single item. -/
def flattenItem : FilesystemItem → List (Path × FileState)
  | .File name st => [(name, st)]
  | .Directory name children => (flattenDir children).map fun e => (joinPre name e.1, e.2)

end

/-- Is an item a `Directory`? -/
def isDirItem : FilesystemItem → Bool
  | .Directory _ _ => true
  | _ => false

/-- The sibling name of an item (directories may be unnamed at the root). -/
def itemName : FilesystemItem → Option Path
  | .File name _ => some name
  | .Directory name _ => name

/-- All `Directory` items precede all `File` items of a level. -/
def dirsFirst (l : Directory) : Bool :=
  (l.dropWhile isDirItem).all fun it => !isDirItem it

/-- No duplicate among sibling names. -/
def nodupNames : List (Option Path) → Bool
  | [] => true
  | x :: xs => !(xs.contains x) && nodupNames xs

mutual

/-- Every level of a listing is well formed. -/
def levelsOkAll : Directory → Bool
  | [] => true
  | it :: rest => levelsOkItem it && levelsOkAll rest

/-- Every level of one item is well formed: directories first, no duplicate
sibling names, recursively. -/
def levelsOkItem : FilesystemItem → Bool
  | .File _ _ => true
  | .Directory _ children =>
    dirsFirst children && nodupNames (children.map itemName) && levelsOkAll children

end

/-- The root level plus every nested level is well formed. -/
def levelsOk (l : Directory) : Bool :=
  dirsFirst l && nodupNames (l.map itemName) && levelsOkAll l

/-- Specification of one successful `unflatten_tree` node: its flattening
holds exactly the stripped entries of the keys below the prefix, with no
duplicate flattened path, and every level is well formed. -/
def NodeSpec (m : List (Path × FileState)) (pfx : Option Path) (dir : Directory) : Prop :=
  ∃ ents, nodeEntries m pfx = some ents ∧
    (∀ e : Path × FileState, e ∈ flattenDir dir ↔ e ∈ ents) ∧
    ((flattenDir dir).map Prod.fst).Nodup ∧
    levelsOk dir = true

/-- Invariant of the running `children` accumulator of the directory loop:
every item so far is a named directory satisfying its node spec. -/
def AccOk (m : List (Path × FileState)) (pfx : Option Path) (acc : Directory) : Prop :=
  ∀ it ∈ acc, ∃ nm sub, it = FilesystemItem.Directory (some nm) sub ∧
    NodeSpec m (some (joinPre pfx nm)) sub

/-- Specification of a successful directory loop run: it appends one named
directory per new name of `ds`, each satisfying its node spec, covers every
name of `ds`, and preserves sibling-name uniqueness. -/
def LoopSpec (m : List (Path × FileState)) (pfx : Option Path) (ds : List Path)
    (acc out : Directory) : Prop :=
  ∃ ext, out = acc ++ ext ∧
    (∀ it ∈ ext, ∃ d sub, it = FilesystemItem.Directory (some d) sub ∧ d ∈ ds ∧
      NodeSpec m (some (joinPre pfx d)) sub) ∧
    (∀ d ∈ ds, ∃ sub, FilesystemItem.Directory (some d) sub ∈ out ∧
      NodeSpec m (some (joinPre pfx d)) sub) ∧
    (nodupNames (acc.map itemName) = true → nodupNames (out.map itemName) = true)

/-- A content digest (`format!("{:x}", sha256)`), opaque fixed-width hex. -/
abbrev HashStr := List Char

/-- The classification loops of `calculate_folder_diff`: old paths missing
from the new snapshot are `Removed`, present-with-different-digest are
`Modified`, equal digests are omitted; new paths missing from the old
snapshot are `Added`. -/
def classifyTrees (oldTree newTree : List (Path × HashStr)) : List (Path × FileState) :=
  (oldTree.filterMap fun e =>
    match newTree.lookup e.1 with
    | some newHash => if e.2 ≠ newHash then some (e.1, FileState.Modified) else none
    | none => some (e.1, FileState.Removed)) ++
  (newTree.filterMap fun e =>
    if (oldTree.lookup e.1).isNone then some (e.1, FileState.Added) else none)

/-- `calculate_folder_diff`, with the two `get_dir_tree` snapshots passed
in (the directory walk and SHA-256 hashing are filesystem I/O performed by
an external collaborator; digests enter as opaque strings). -/
def calculate_folder_diff (oldDir newDir : Path)
    (oldTree newTree : List (Path × HashStr)) : Option FolderDiff :=
  (unflatten_tree (classifyTrees oldTree newTree) none).map fun d =>
    { old := oldDir, new := newDir, dir := d }

/-! ### Archive decoder (`asar.rs`) -/

/-- `AsarEntry`: the untagged header shape; a `File` offset is a decimal
string, its size a `usize`.  The `files` mapping is modelled as an assoc
list (serde decodes into a `HashMap`, whose order is irrelevant to the
claims). -/
inductive AsarEntry where
  | Directory (files : List (Path × AsarEntry))
  | File (offset : Path) (size : Nat)

/-- `FileTree`: relative path to raw byte content. -/
abbrev FileTree := List (Path × List Nat)

/-- `str::parse::<usize>`: optional leading `+`, then one or more ASCII
digits, value below `2 ^ 64`; anything else errors. -/
def parseUsize (s : List Char) : Option Nat :=
  let digits := match s with
    | '+' :: rest => rest
    | _ => s
  if digits.isEmpty then none
  else if digits.all Char.isDigit then
    let v := digits.foldl (fun acc c => acc * 10 + (c.toNat - '0'.toNat)) 0
    if v < 2 ^ 64 then some v else none
  else none

/-- Read a native-endian (little-endian) `u32` at byte position `pos`
(binrw `read_ne`); the stream is a byte list. -/
def readU32 (stream : List Nat) (pos : Nat) : Option Nat :=
  match stream.drop pos with
  | b0 :: b1 :: b2 :: b3 :: _ => some (b0 + 256 * b1 + 65536 * b2 + 16777216 * b3)
  | _ => none

/-- `seek(SeekFrom::Start(pos))` then `read_exact` of `len` bytes: seeking
past the end succeeds, reading fails unless all `len` bytes are available
(`read_exact` of zero bytes succeeds trivially). -/
def readSlice (stream : List Nat) (pos len : Nat) : Option (List Nat) :=
  if len = 0 then some []
  else if pos + len ≤ stream.length then some ((stream.drop pos).take len)
  else none

/-- The child-path construction of `walk_tree`:
`if path != "" then format!("{}/{}", path, name) else name`. -/
def joinWalk (path name : Path) : Path :=
  if path.isEmpty then name else path ++ '/' :: name

mutual

/-- `walk_tree` on one entry: directories recurse; a file parses its
decimal offset string, then seeks to `base as u64 + offset as u64` — in
the shipped (release) build that `u64` sum wraps modulo `2 ^ 64` when the
parseable offset is at least `2 ^ 64 - base` (a debug build would panic on
the same overflow), and the seek itself always succeeds — then allocates
`vec![0; *size]`, which panics (modelled as `none`) when the
header-declared `size` exceeds `isize::MAX = 2 ^ 63 - 1` (Vec capacity
overflow), and finally `read_exact`s exactly `size` bytes. -/
def walk_tree (stream : List Nat) (base : Nat) :
    AsarEntry → Path → Option (Except String FileTree)
  | .Directory files, path => walkList stream base files path
  | .File offsetStr size, path =>
    match parseUsize offsetStr with
    | none => some (.error "invalid digit found in string")
    | some offset =>
      if size < 2 ^ 63 then
        match readSlice stream ((base + offset) % 2 ^ 64) size with
        | none => some (.error "failed to fill whole buffer")
        | some data => some (.ok [(path, data)])
      else none

/-- The directory loop of `walk_tree`; a child panic (`none`) unwinds and
any child error propagates. -/
def walkList (stream : List Nat) (base : Nat) :
    List (Path × AsarEntry) → Path → Option (Except String FileTree)
  | [], _ => some (.ok [])
  | (name, entry) :: rest, path =>
    match walk_tree stream base entry (joinWalk path name) with
    | none => none
    | some (.error e) => some (.error e)
    | some (.ok out) =>
      match walkList stream base rest path with
      | none => none
      | some (.error e) => some (.error e)
      | some (.ok outRest) => some (.ok (out ++ outRest))

end

/-- `parse_asar` = binrw parse of `AsarHeader`: four `u32`s (`payload_size`
and `header_size` are read but unused), then `header_json_reader` reads
exactly `actual_string_size` bytes at stream offset 16 and hands them to
the JSON deserializer (serde_json is external, passed in as `jp`), then
`file_tree_reader` walks the decoded tree with
`base = 8 + header_string_size + 4` (no overflow there: both summands are
far below `usize::MAX`).  A panic inside the walk unwinds past every
`map_err` layer and out of `parse_asar`, hence the `Option`: `none` is the
panic, `some` the returned `anyhow::Result`. -/
def parse_asar (jp : List Nat → Option AsarEntry) (stream : List Nat) :
    Option (Except String FileTree) :=
  match readU32 stream 0, readU32 stream 4, readU32 stream 8, readU32 stream 12 with
  | some _, some _, some headerStringSize, some actualStringSize =>
    match readSlice stream 16 actualStringSize with
    | none => some (.error "failed to read json header")
    | some buf =>
      match jp buf with
      | none => some (.error "malformed json header")
      | some rootEntry =>
        walk_tree stream (8 + headerStringSize + 4) rootEntry []
  | _, _, _, _ => some (.error "failed to read header fields")

mutual

/-- The `File` entries of a header tree: accumulated path, offset string
and declared size, in walk order. -/
def entryFiles : AsarEntry → Path → List (Path × Path × Nat)
  | .Directory files, path => entryFilesList files path
  | .File offsetStr size, path => [(path, offsetStr, size)]

/-- `entryFiles` over a directory listing. -/
def entryFilesList : List (Path × AsarEntry) → Path → List (Path × Path × Nat)
  | [], _ => []
  | (name, entry) :: rest, path =>
    entryFiles entry (joinWalk path name) ++ entryFilesList rest path

end

/-! ### Content diff and highlight engine (`diff.rs`) -/

/-- `FileDiff` from `diff.rs`. -/
structure FileDiff where
  old : List DiffRenderFragment
  new : List DiffRenderFragment
deriving DecidableEq

/-- One syntect token as consumed by the highlight loop: the resolved
style attributes and the in-line char range start. -/
structure TokStyle where
  bold : Bool
  italic : Bool
  underline : Bool
  color : Color32
deriving DecidableEq

/-- The modified `LinesWithEndings` of `diff.rs`: split after each newline;
the yielded offset is the `consumed` counter, advanced by
`byte_index_from_char_index(input, split)` where `split` is the byte index
just past the newline (the original mixes the two index spaces; on ASCII
text they coincide). -/
def linesWEAux : Nat → List Char → Nat → List (List Char × Nat)
  | 0, _, _ => []
  | _ + 1, [], _ => []
  | fuel + 1, c :: cs, consumed =>
    match (c :: cs).findIdx? (fun ch => ch == '\n') with
    | some ci =>
      ((c :: cs).take (ci + 1), consumed) ::
        linesWEAux fuel ((c :: cs).drop (ci + 1))
          (consumed + byteIdxFromCharIdx (c :: cs) (byteLen ((c :: cs).take ci) + 1))
    | none => [(c :: cs, consumed)]

/-- `LinesWithEndings::from(input)` iterated to exhaustion; each step
consumes at least one char, so the fuel `s.length + 1` is never spent. -/
def linesWithEndings (s : List Char) (consumed : Nat) : List (List Char × Nat) :=
  linesWEAux (s.length + 1) s consumed

/-- The running `last_bold/last_italic/last_underline/last_color` state of
the highlight loop. -/
structure HLState where
  lastBold : Bool
  lastItalic : Bool
  lastUnderline : Bool
  lastColor : Color32
deriving DecidableEq

/-- Initial highlight state. -/
def initHLState : HLState := ⟨false, false, false, Color32.TRANSPARENT⟩

/-- Event emission for one token: push a `SetBold` / `SetItalic` /
`SetUnderline` / `SetColor` event at the token start offset whenever the
attribute changed relative to the previous token (run-length reduction). -/
def pushToken (lineOffset : Nat) (line : List Char) (st : HLState)
    (tok : TokStyle × Nat) : HLState × List DiffRenderFragment :=
  let start := lineOffset + byteIdxFromCharIdx line tok.2
  let style := tok.1
  (⟨style.bold, style.italic, style.underline, style.color⟩,
    (if style.bold ≠ st.lastBold then [⟨start, DiffRenderCommand.SetBold style.bold⟩] else []) ++
    (if style.italic ≠ st.lastItalic then [⟨start, DiffRenderCommand.SetItalic style.italic⟩] else []) ++
    (if style.underline ≠ st.lastUnderline then [⟨start, DiffRenderCommand.SetUnderline style.underline⟩] else []) ++
    (if style.color ≠ st.lastColor then [⟨start, DiffRenderCommand.SetColor style.color⟩] else []))

/-- The inner token loop of a highlighted line. -/
def pushTokens (lineOffset : Nat) (line : List Char) :
    HLState → List (TokStyle × Nat) → HLState × List DiffRenderFragment
  | st, [] => (st, [])
  | st, tok :: toks =>
    let r1 := pushToken lineOffset line st tok
    let r2 := pushTokens lineOffset line r1.1 toks
    (r2.1, r1.2 ++ r2.2)

/-- The per-line loop of `do_syntax_highlighting`: `tokenize` stands for
`parse_line` plus `RangedHighlightIterator` (syntect, external), given the
line number and line text.  A tokenize failure aborts the loop, but the
commands pushed for earlier lines stay in the caller's vector. -/
def hlLines (tokenize : Nat → List Char → Except String (List (TokStyle × Nat))) :
    List (List Char × Nat) → Nat → HLState → List DiffRenderFragment × Option String
  | [], _, _ => ([], none)
  | (line, offset) :: rest, i, st =>
    match tokenize i line with
    | .error e => ([], some e)
    | .ok toks =>
      let r := pushTokens offset line st toks
      let tail := hlLines tokenize rest (i + 1) r.1
      (r.2 ++ tail.1, tail.2)

/-- `do_syntax_highlighting`: syntax lookup (`synFound` models
`find_syntax_by_extension` succeeding for the extension), then the
per-line loop.  Returns the pushed commands and the error, if any. -/
def do_syntax_highlighting (synFound : Bool)
    (tokenize : Nat → List Char → Except String (List (TokStyle × Nat)))
    (src : List Char) : List DiffRenderFragment × Option String :=
  if !synFound then ([], some "could not get syntax")
  else hlLines tokenize (linesWithEndings src 0) 0 initHLState

/-- `parse_diff`: `SetHighlight(true)` at the changed range start and
`SetHighlight(false)` at its end. -/
def hunkFrags (r : Nat × Nat) : List DiffRenderFragment :=
  [⟨r.1, DiffRenderCommand.SetHighlight true⟩, ⟨r.2, DiffRenderCommand.SetHighlight false⟩]

/-- `do_file_diffing`: grammar lookup, parsing and `compute_edit_script`
(libdiffsitter, external) collapse into one outcome `sd`, on success the
changed byte ranges per side.  In the source every push happens after the
last fallible call, so an erroring structural pass pushed nothing. -/
def do_file_diffing (sd : Except String (List (Nat × Nat) × List (Nat × Nat))) :
    List DiffRenderFragment × List DiffRenderFragment × Option String :=
  match sd with
  | .error e => ([], [], some e)
  | .ok r => ((r.1.map hunkFrags).flatten, (r.2.map hunkFrags).flatten, none)

/-- `calculate_file_diff_inner`: run both highlight passes and the
structural pass, log and ignore their failures, clean up both sides.
Always returns `Ok`. -/
def calculate_file_diff_inner (oldStr newStr : List Char) (synFound : Bool)
    (tokOld tokNew : Nat → List Char → Except String (List (TokStyle × Nat)))
    (sd : Except String (List (Nat × Nat) × List (Nat × Nat))) :
    Except String FileDiff :=
  let oldHL := do_syntax_highlighting synFound tokOld oldStr
  let newHL := do_syntax_highlighting synFound tokNew newStr
  let sdRes := do_file_diffing sd
  Except.ok
    { old := cleanup_commands oldStr (oldHL.1 ++ sdRes.1)
      new := cleanup_commands newStr (newHL.1 ++ sdRes.2.1) }

/-- `highlight_single_file`: read the file (`?` propagates a read error),
run the highlight pass; on a pass failure drop the partial commands and
fall back to a single raw `Text` fragment. -/
def highlight_single_file (readRes : Except String (List Char)) (synFound : Bool)
    (tokenize : Nat → List Char → Except String (List (TokStyle × Nat))) :
    Except String (List DiffRenderFragment) :=
  match readRes with
  | .error e => .error e
  | .ok src =>
    match do_syntax_highlighting synFound tokenize src with
    | (_, some _) => .ok [⟨0, DiffRenderCommand.Text src⟩]
    | (cmds, none) => .ok (cleanup_commands src cmds)

/-- `calculate_file_diff`: extension check (`?` errors when absent),
missing-side single-file branches, two `read_to_string` calls whose
failures propagate with `?`, then the inner diff with a raw-text fallback
on its error. -/
def calculate_file_diff (ext : Option Path) (oldExists newExists : Bool)
    (oldRead newRead : Except String (List Char)) (synFound : Bool)
    (tokOld tokNew : Nat → List Char → Except String (List (TokStyle × Nat)))
    (sd : Except String (List (Nat × Nat) × List (Nat × Nat))) :
    Except String FileDiff :=
  match ext with
  | none => .error "no file extension"
  | some _ =>
    if !oldExists then
      match highlight_single_file newRead synFound tokNew with
      | .error e => .error e
      | .ok frags => .ok { old := [], new := frags }
    else if !newExists then
      match highlight_single_file oldRead synFound tokOld with
      | .error e => .error e
      | .ok frags => .ok { old := frags, new := [] }
    else
      match oldRead with
      | .error e => .error e
      | .ok oldStr =>
        match newRead with
        | .error e => .error e
        | .ok newStr =>
          match calculate_file_diff_inner oldStr newStr synFound tokOld tokNew sd with
          | .ok diff => .ok diff
          | .error _ =>
            .ok { old := [⟨0, DiffRenderCommand.Text oldStr⟩]
                  new := [⟨0, DiffRenderCommand.Text newStr⟩] }

/-! ## Theorems -/

/-! ### List and byte-length lemmas -/

theorem drop_take_append_drop {α : Type} :
    ∀ (s : List α) (a b : Nat), a ≤ b →
      (s.take b).drop a ++ s.drop b = s.drop a := by
  intro s
  induction s with
  | nil => intro a b _; simp
  | cons c cs ih =>
    intro a b hab
    cases a with
    | zero => simp
    | succ a =>
      cases b with
      | zero => omega
      | succ b => simpa using ih a b (by omega)

theorem drop_take_append_take {α : Type} (s : List α) (a b c : Nat)
    (hab : a ≤ b) (hbc : b ≤ c) :
    (s.take b).drop a ++ (s.take c).drop b = (s.take c).drop a := by
  have h := drop_take_append_drop (s.take c) a b hab
  rwa [List.take_take, Nat.min_eq_left hbc] at h

theorem drop_take_self {α : Type} (s : List α) (n : Nat) : (s.take n).drop n = [] :=
  List.drop_eq_nil_of_le (List.length_take_le n s)

theorem length_le_byteLen (s : List Char) : s.length ≤ byteLen s := by
  induction s with
  | nil => simp [byteLen]
  | cons c cs ih =>
    have := c.utf8Size_pos
    simp only [byteLen, List.map_cons, List.sum_cons, List.length_cons] at ih ⊢
    omega

theorem take_of_byteLen_le (s : List Char) (n : Nat) (h : byteLen s ≤ n) :
    s.take n = s :=
  List.take_of_length_le (Nat.le_trans (length_le_byteLen s) h)

theorem byteLen_pos (c : Char) (cs : List Char) : 0 < byteLen (c :: cs) := by
  have := c.utf8Size_pos
  simp only [byteLen, List.map_cons, List.sum_cons]
  omega

/-! ### Stable sort lemmas -/

theorem insertByOffset_perm (l : List DiffRenderFragment) (f : DiffRenderFragment) :
    (insertByOffset l f).Perm (f :: l) := by
  induction l with
  | nil => simp [insertByOffset]
  | cons g gs ih =>
    by_cases h : g.offset ≤ f.offset
    · simpa [insertByOffset, h] using (ih.cons g).trans (List.Perm.swap f g gs)
    · simp [insertByOffset, h]

theorem foldl_insertByOffset_perm (l : List DiffRenderFragment) :
    ∀ acc, (l.foldl insertByOffset acc).Perm (acc ++ l) := by
  induction l with
  | nil => simp
  | cons f fs ih =>
    intro acc
    have h1 : (f :: fs).foldl insertByOffset acc
        = fs.foldl insertByOffset (insertByOffset acc f) := rfl
    have h2 := ih (insertByOffset acc f)
    have h3 : (insertByOffset acc f ++ fs).Perm ((f :: acc) ++ fs) :=
      (insertByOffset_perm acc f).append_right fs
    have h4 : ((f :: acc) ++ fs).Perm (acc ++ f :: fs) := by
      simpa using List.perm_middle.symm
    rw [h1]
    exact (h2.trans h3).trans h4

theorem sortByOffset_perm (l : List DiffRenderFragment) : (sortByOffset l).Perm l := by
  simpa [sortByOffset] using foldl_insertByOffset_perm l []

theorem insertByOffset_sorted (l : List DiffRenderFragment) (f : DiffRenderFragment)
    (h : l.Pairwise (fun a b => a.offset ≤ b.offset)) :
    (insertByOffset l f).Pairwise (fun a b => a.offset ≤ b.offset) := by
  induction l with
  | nil => simp [insertByOffset]
  | cons g gs ih =>
    rcases List.pairwise_cons.mp h with ⟨hg, hgs⟩
    by_cases hle : g.offset ≤ f.offset
    · simp only [insertByOffset, if_pos hle]
      refine List.pairwise_cons.mpr ⟨?_, ih hgs⟩
      intro y hy
      rcases List.mem_cons.mp ((insertByOffset_perm gs f).mem_iff.mp hy) with rfl | hy
      · exact hle
      · exact hg y hy
    · simp only [insertByOffset, if_neg hle]
      have hfg : f.offset ≤ g.offset := Nat.le_of_lt (Nat.lt_of_not_le hle)
      refine List.pairwise_cons.mpr ⟨?_, h⟩
      intro y hy
      rcases List.mem_cons.mp hy with rfl | hy
      · exact hfg
      · exact Nat.le_trans hfg (hg y hy)

theorem foldl_insertByOffset_sorted (l : List DiffRenderFragment) :
    ∀ acc, acc.Pairwise (fun a b => a.offset ≤ b.offset) →
      (l.foldl insertByOffset acc).Pairwise (fun a b => a.offset ≤ b.offset) := by
  induction l with
  | nil => intro acc h; simpa using h
  | cons f fs ih => intro acc h; exact ih _ (insertByOffset_sorted acc f h)

theorem sortByOffset_sorted (l : List DiffRenderFragment) :
    (sortByOffset l).Pairwise (fun a b => a.offset ≤ b.offset) :=
  foldl_insertByOffset_sorted l [] List.Pairwise.nil

/-! ### Cleanup sweep lemmas -/

theorem fragText_eq_nil {c : DiffRenderCommand} (h : isTextCmd c = false) :
    fragText c = [] := by
  cases c <;> simp_all [fragText, isTextCmd]

theorem textConcat_cons (f : DiffRenderFragment) (l : List DiffRenderFragment) :
    textConcat (f :: l) = fragText f.cmd ++ textConcat l := rfl

theorem finalPos_cons (pos : Nat) (f : DiffRenderFragment) (l : List DiffRenderFragment) :
    finalPos pos (f :: l) = finalPos (max pos f.offset) l := rfl

theorem le_finalPos (l : List DiffRenderFragment) : ∀ pos, pos ≤ finalPos pos l := by
  induction l with
  | nil => intro pos; simp [finalPos]
  | cons f fs ih =>
    intro pos
    rw [finalPos_cons]
    exact Nat.le_trans (Nat.le_max_left pos f.offset) (ih _)

theorem textConcat_cleanupGo (src : List Char) (size : Nat) :
    ∀ (l : List DiffRenderFragment) (pos : Nat),
      (∀ f ∈ l, isTextCmd f.cmd = false) →
      textConcat (cleanupGo src size pos l) =
        (src.take (max (finalPos pos l) size)).drop pos := by
  intro l
  induction l with
  | nil =>
    intro pos _
    by_cases h : pos < size
    · rw [show finalPos pos [] = pos from rfl, Nat.max_eq_right (Nat.le_of_lt h)]
      simp [cleanupGo, h, textConcat, charRange, fragText]
    · rw [show finalPos pos [] = pos from rfl, Nat.max_eq_left (Nat.le_of_not_lt h)]
      simp only [cleanupGo, if_neg h]
      exact (drop_take_self src pos).symm
  | cons f rest ih =>
    intro pos hnt
    have hf : isTextCmd f.cmd = false := hnt f (List.mem_cons_self f rest)
    have hnt' : ∀ g ∈ rest, isTextCmd g.cmd = false :=
      fun g hg => hnt g (List.mem_cons_of_mem f hg)
    by_cases h : f.offset > pos
    · simp only [cleanupGo, if_pos h, textConcat_cons, fragText_eq_nil hf,
        List.nil_append, ih f.offset hnt']
      rw [finalPos_cons, Nat.max_eq_right (Nat.le_of_lt h)]
      show charRange src pos f.offset ++ _ = _
      rw [charRange]
      exact drop_take_append_take src pos f.offset _ (Nat.le_of_lt h)
        (Nat.le_trans (le_finalPos rest f.offset) (Nat.le_max_left _ size))
    · simp only [cleanupGo, if_neg h, textConcat_cons, fragText_eq_nil hf,
        List.nil_append, ih pos hnt']
      rw [finalPos_cons, Nat.max_eq_left (Nat.le_of_not_lt h)]

theorem cleanupGo_offsets_ge (src : List Char) (size : Nat) :
    ∀ (l : List DiffRenderFragment) (pos : Nat),
      l.Pairwise (fun a b => a.offset ≤ b.offset) →
      (∀ f ∈ l, pos ≤ f.offset) →
      ∀ g ∈ cleanupGo src size pos l, pos ≤ g.offset := by
  intro l
  induction l with
  | nil =>
    intro pos _ _ g hg
    by_cases h : pos < size
    · simp only [cleanupGo, if_pos h, List.mem_singleton] at hg
      subst hg; exact Nat.le_refl pos
    · simp [cleanupGo, if_neg h] at hg
  | cons f rest ih =>
    intro pos hpair hpos g hg
    rcases List.pairwise_cons.mp hpair with ⟨hhead, htail⟩
    by_cases h : f.offset > pos
    · simp only [cleanupGo, if_pos h, List.mem_cons] at hg
      rcases hg with rfl | rfl | hg
      · exact Nat.le_refl pos
      · exact hpos _ (List.mem_cons_self _ rest)
      · exact Nat.le_trans (Nat.le_of_lt h) (ih f.offset htail hhead g hg)
    · simp only [cleanupGo, if_neg h, List.mem_cons] at hg
      rcases hg with rfl | hg
      · exact hpos _ (List.mem_cons_self _ rest)
      · exact ih pos htail (fun x hx => hpos x (List.mem_cons_of_mem f hx)) g hg

theorem textConcat_split_cleanupGo (src : List Char) (size : Nat) :
    ∀ (l : List DiffRenderFragment) (pos : Nat),
      l.Pairwise (fun a b => a.offset ≤ b.offset) →
      (∀ f ∈ l, isTextCmd f.cmd = false) →
      (∀ f ∈ l, pos ≤ f.offset) →
      ∀ pre f suf, cleanupGo src size pos l = pre ++ f :: suf →
        isTextCmd f.cmd = false →
        textConcat pre = (src.take f.offset).drop pos := by
  intro l
  induction l with
  | nil =>
    intro pos _ _ _ pre f suf heq htext
    by_cases hp : pos < size
    · simp only [cleanupGo, if_pos hp] at heq
      cases pre with
      | nil =>
        simp only [List.nil_append] at heq
        injection heq with h1 _
        rw [← h1] at htext
        simp [isTextCmd] at htext
      | cons p ps =>
        simp only [List.cons_append] at heq
        injection heq with _ h2
        exact absurd h2.symm (by simp)
    · simp only [cleanupGo, if_neg hp] at heq
      exact absurd heq.symm (by simp)
  | cons f0 rest ih =>
    intro pos hpair hnt hpos pre f suf heq htext
    rcases List.pairwise_cons.mp hpair with ⟨hhead, htail⟩
    have hf0 : isTextCmd f0.cmd = false := hnt f0 (List.mem_cons_self f0 rest)
    have hnt' : ∀ g ∈ rest, isTextCmd g.cmd = false :=
      fun g hg => hnt g (List.mem_cons_of_mem f0 hg)
    have hf0pos : pos ≤ f0.offset := hpos f0 (List.mem_cons_self f0 rest)
    by_cases h : f0.offset > pos
    · simp only [cleanupGo, if_pos h] at heq
      cases pre with
      | nil =>
        simp only [List.nil_append] at heq
        injection heq with h1 _
        rw [← h1] at htext
        simp [isTextCmd] at htext
      | cons p ps =>
        simp only [List.cons_append] at heq
        injection heq with h1 h2
        cases ps with
        | nil =>
          simp only [List.nil_append] at h2
          injection h2 with h3 _
          subst h1
          rw [← h3]
          simp [textConcat, fragText, charRange]
        | cons q qs =>
          simp only [List.cons_append] at h2
          injection h2 with h3 h4
          subst h1
          subst h3
          have hmem : f ∈ cleanupGo src size f0.offset rest := by
            rw [h4]
            exact List.mem_append.mpr (Or.inr (List.mem_cons_self f suf))
          have hge : f0.offset ≤ f.offset :=
            cleanupGo_offsets_ge src size rest f0.offset htail hhead f hmem
          have hqs := ih f0.offset htail hnt' hhead qs f suf h4 htext
          simp only [textConcat_cons, fragText_eq_nil hf0, List.nil_append, hqs,
            charRange]
          show (src.take f0.offset).drop pos ++ _ = _
          exact drop_take_append_take src pos f0.offset f.offset (Nat.le_of_lt h) hge
    · have heq0 : f0.offset = pos := Nat.le_antisymm (Nat.le_of_not_lt h) hf0pos
      simp only [cleanupGo, if_neg h] at heq
      cases pre with
      | nil =>
        simp only [List.nil_append] at heq
        injection heq with h1 _
        rw [← h1, heq0]
        show textConcat [] = (src.take pos).drop pos
        rw [drop_take_self]
        rfl
      | cons p ps =>
        simp only [List.cons_append] at heq
        injection heq with h1 h2
        subst h1
        have hps := ih pos htail hnt'
          (fun x hx => hpos x (List.mem_cons_of_mem f0 hx)) ps f suf h2 htext
        simp only [textConcat_cons, fragText_eq_nil hf0, List.nil_append, hps]

/-- Claim C1: for every source text and every finite list of
style/highlight (non-`Text`) events — any mix, same-offset collisions,
offset 0 and offset = length included — the concatenation of all `Text`
fragments of `cleanup_commands` is exactly the source text, and every
style/highlight fragment sits at a `Text`-fragment boundary: the text
emitted before it is precisely the source prefix up to its offset, so no
event ever lands inside a `Text` run. -/
theorem cleanup_commands_reconstructs (src : List Char) (raw : List DiffRenderFragment)
    (hraw : ∀ f ∈ raw, isTextCmd f.cmd = false) :
    textConcat (cleanup_commands src raw) = src ∧
    ∀ pre f suf, cleanup_commands src raw = pre ++ f :: suf →
      isTextCmd f.cmd = false →
      textConcat pre = src.take f.offset := by
  have hperm := sortByOffset_perm raw
  have hsorted := sortByOffset_sorted raw
  have hnt : ∀ f ∈ sortByOffset raw, isTextCmd f.cmd = false :=
    fun f hf => hraw f (hperm.subset hf)
  constructor
  · show textConcat (cleanupGo src (byteLen src) 0 (sortByOffset raw)) = src
    rw [textConcat_cleanupGo src (byteLen src) (sortByOffset raw) 0 hnt, List.drop_zero,
      take_of_byteLen_le]
    exact Nat.le_max_right _ _
  · intro pre f suf heq htext
    have hsplit := textConcat_split_cleanupGo src (byteLen src) (sortByOffset raw) 0
      hsorted hnt (fun g _ => Nat.zero_le _) pre f suf heq htext
    simpa using hsplit

/-- Witness for C1: a concrete text with one highlight event strictly
inside it. -/
theorem cleanup_commands_reconstructs_witness :
    textConcat (cleanup_commands ('a' :: 'b' :: [])
      (⟨1, DiffRenderCommand.SetHighlight true⟩ :: [])) = 'a' :: 'b' :: [] :=
  (cleanup_commands_reconstructs ('a' :: 'b' :: [])
    (⟨1, DiffRenderCommand.SetHighlight true⟩ :: []) (by decide)).1

/-- Claim C7 (amended): merging an empty event list yields the single
fragment `Text t` at offset 0 for every nonempty text `t`; for the empty
text it yields no fragment at all. -/
theorem cleanup_commands_no_events :
    (∀ (c : Char) (cs : List Char),
      cleanup_commands (c :: cs) [] = [⟨0, DiffRenderCommand.Text (c :: cs)⟩]) ∧
    cleanup_commands [] [] = [] := by
  constructor
  · intro c cs
    have hpos : 0 < byteLen (c :: cs) := byteLen_pos c cs
    show cleanupGo (c :: cs) (byteLen (c :: cs)) 0 [] = _
    simp only [cleanupGo, if_pos hpos, charRange, List.drop_zero]
    rw [take_of_byteLen_le _ _ (Nat.le_refl _)]
  · rfl

/-- Claim C7 counterexample: on the empty text with no events the cleanup
output is empty — there is no `Text` fragment at all, rather than exactly
one. -/
theorem cleanup_commands_empty_text_counterexample :
    cleanup_commands [] [] ≠ [⟨0, DiffRenderCommand.Text []⟩] := by decide

/-! ### Option `mapM` lemmas -/

theorem mapM_some_of_mem {α β : Type} (g : α → Option β) :
    ∀ (l : List α) (r : List β), l.mapM g = some r → ∀ a ∈ l, ∃ b ∈ r, g a = some b := by
  intro l
  induction l with
  | nil => intro r _ a ha; exact absurd ha (List.not_mem_nil a)
  | cons x xs ih =>
    intro r h a ha
    rw [List.mapM_cons] at h
    cases hgx : g x with
    | none => rw [hgx] at h; simp at h
    | some y =>
      rw [hgx] at h
      cases hrest : xs.mapM g with
      | none => rw [hrest] at h; simp at h
      | some ys =>
        rw [hrest] at h
        simp only [Option.bind_eq_bind, Option.some_bind, Option.pure_def,
          Option.some.injEq] at h
        subst h
        rcases List.mem_cons.mp ha with rfl | ha
        · exact ⟨y, List.mem_cons_self y ys, hgx⟩
        · rcases ih ys hrest a ha with ⟨b, hb, hgb⟩
          exact ⟨b, List.mem_cons_of_mem y hb, hgb⟩

theorem mapM_mem_of_some {α β : Type} (g : α → Option β) :
    ∀ (l : List α) (r : List β), l.mapM g = some r → ∀ b ∈ r, ∃ a ∈ l, g a = some b := by
  intro l
  induction l with
  | nil =>
    intro r h b hb
    rw [List.mapM_nil] at h
    simp only [Option.pure_def, Option.some.injEq] at h
    subst h
    exact absurd hb (List.not_mem_nil b)
  | cons x xs ih =>
    intro r h b hb
    rw [List.mapM_cons] at h
    cases hgx : g x with
    | none => rw [hgx] at h; simp at h
    | some y =>
      rw [hgx] at h
      cases hrest : xs.mapM g with
      | none => rw [hrest] at h; simp at h
      | some ys =>
        rw [hrest] at h
        simp only [Option.bind_eq_bind, Option.some_bind, Option.pure_def,
          Option.some.injEq] at h
        subst h
        rcases List.mem_cons.mp hb with rfl | hb
        · exact ⟨x, List.mem_cons_self x xs, hgx⟩
        · rcases ih ys hrest b hb with ⟨a, ha, hga⟩
          exact ⟨a, List.mem_cons_of_mem x ha, hga⟩

theorem mapM_eq_none_of_mem {α β : Type} (g : α → Option β) :
    ∀ (l : List α) (a : α), a ∈ l → g a = none → l.mapM g = none := by
  intro l
  induction l with
  | nil => intro a ha; exact absurd ha (List.not_mem_nil a)
  | cons x xs ih =>
    intro a ha hga
    rw [List.mapM_cons]
    rcases List.mem_cons.mp ha with rfl | ha
    · rw [hga]; rfl
    · cases hgx : g x with
      | none => rfl
      | some y => rw [ih a ha hga]; rfl


/-! ### Path prefix and segment lemmas -/

theorem stripPfx_eq_some {p s t : Path} : stripPfx p s = some t ↔ s = p ++ t := by
  rw [stripPfx]
  by_cases h : p.isPrefixOf s
  · simp only [if_pos h, Option.some.injEq]
    have hp : p <+: s := List.isPrefixOf_iff_prefix.mp h
    rcases hp with ⟨u, hu⟩
    subst hu
    rw [List.drop_left]
    exact ⟨fun ht => by rw [ht], fun ht => List.append_cancel_left ht⟩
  · simp only [if_neg h]
    constructor
    · intro hh; exact absurd hh (by simp)
    · intro hh
      subst hh
      exact absurd (List.isPrefixOf_iff_prefix.mpr (List.prefix_append p t)) h

theorem keyStrip_eq_some {pfx : Option Path} {k s : Path} :
    keyStrip pfx k = some s ↔ k = joinPre pfx s := by
  cases pfx with
  | none => simp [keyStrip, joinPre, eq_comm]
  | some p =>
    rw [keyStrip, stripPfx_eq_some, joinPre]
    simp

theorem keyStrip_joinPre (pfx : Option Path) (s : Path) :
    keyStrip pfx (joinPre pfx s) = some s := keyStrip_eq_some.mpr rfl

theorem keyFilter_joinPre (pfx : Option Path) (s : Path) :
    keyFilter pfx (joinPre pfx s) = true := by
  cases pfx with
  | none => rfl
  | some p =>
    rw [keyFilter, joinPre]
    exact List.isPrefixOf_iff_prefix.mpr (List.prefix_append p ('/' :: s))

theorem joinPre_inj {pfx : Option Path} {s t : Path}
    (h : joinPre pfx s = joinPre pfx t) : s = t := by
  cases pfx with
  | none => exact h
  | some p =>
    rw [joinPre, joinPre] at h
    simpa using List.append_cancel_left h

theorem joinPre_extend (pfx : Option Path) (d r : Path) :
    joinPre pfx (d ++ '/' :: r) = joinPre pfx d ++ '/' :: r := by
  cases pfx <;> simp [joinPre]

theorem hasSlash_iff {s : Path} : hasSlash s = true ↔ '/' ∈ s := by
  rw [hasSlash]
  exact List.elem_iff

theorem firstSegment_no_slash (s : Path) : hasSlash (firstSegment s) = false := by
  by_contra h
  have h' : hasSlash (firstSegment s) = true := by
    cases hh : hasSlash (firstSegment s) with
    | false => exact absurd hh h
    | true => rfl
  have hm := hasSlash_iff.mp h'
  have := List.mem_takeWhile_imp hm
  simp at this

theorem hasSlash_decomp {s : Path} (h : hasSlash s = true) :
    ∃ r, s = firstSegment s ++ '/' :: r := by
  induction s with
  | nil => simp [hasSlash] at h
  | cons c cs ih =>
    by_cases hc : c = '/'
    · subst hc
      exact ⟨cs, by simp [firstSegment]⟩
    · have h' : hasSlash cs = true := by
        rcases List.mem_cons.mp (hasSlash_iff.mp h) with h0 | h0
        · exact absurd h0.symm hc
        · exact hasSlash_iff.mpr h0
      rcases ih h' with ⟨r, hr⟩
      refine ⟨r, ?_⟩
      have hfs : firstSegment (c :: cs) = c :: firstSegment cs := by
        simp [firstSegment, List.takeWhile_cons, hc]
      rw [hfs, List.cons_append, ← hr]

theorem firstSegment_append {d : Path} (hd : hasSlash d = false) (r : Path) :
    firstSegment (d ++ '/' :: r) = d := by
  induction d with
  | nil => simp [firstSegment]
  | cons c cs ih =>
    have hc : ¬(c = '/') := by
      intro hceq
      subst hceq
      have h1 : hasSlash ('/' :: cs) = true := hasSlash_iff.mpr (List.mem_cons_self '/' cs)
      rw [h1] at hd
      exact absurd hd (by simp)
    have hcs : hasSlash cs = false := by
      cases hh : hasSlash cs with
      | false => rfl
      | true =>
        have h1 : hasSlash (c :: cs) = true :=
          hasSlash_iff.mpr (List.mem_cons_of_mem c (hasSlash_iff.mp hh))
        rw [h1] at hd
        exact absurd hd (by simp)
    have hpc : (!(c == '/')) = true := by simp [hc]
    have hstep : firstSegment ((c :: cs) ++ '/' :: r) = c :: firstSegment (cs ++ '/' :: r) := by
      simp only [List.cons_append, firstSegment, List.takeWhile_cons, hpc, if_true]
    rw [hstep, ih hcs]


/-! ### Assoc-list lookup -/

theorem lookup_eq_some_iff {β : Type} :
    ∀ {m : List (Path × β)} {k : Path} {v : β},
      (m.map Prod.fst).Nodup →
      (m.lookup k = some v ↔ (k, v) ∈ m) := by
  intro m
  induction m with
  | nil => intro k v _; simp [List.lookup]
  | cons e rest ih =>
    intro k v hnodup
    obtain ⟨k', v'⟩ := e
    simp only [List.map_cons, List.nodup_cons] at hnodup
    obtain ⟨hk', hrest⟩ := hnodup
    by_cases he : k = k'
    · subst he
      simp only [List.lookup, beq_self_eq_true]
      constructor
      · intro h
        simp only [Option.some.injEq] at h
        subst h
        exact List.mem_cons_self _ _
      · intro h
        rcases List.mem_cons.mp h with h0 | h0
        · simp only [Prod.mk.injEq] at h0
          rw [h0.2]
        · exact absurd (List.mem_map_of_mem Prod.fst h0) hk'
    · have hbeq : (k == k') = false := by
        cases hb : k == k' with
        | false => rfl
        | true => exact absurd (by simpa using hb) he
      simp only [List.lookup, hbeq]
      rw [ih hrest]
      constructor
      · intro h; exact List.mem_cons_of_mem _ h
      · intro h
        rcases List.mem_cons.mp h with h0 | h0
        · simp only [Prod.mk.injEq] at h0
          exact absurd h0.1 he
        · exact h0

theorem lookupState_eq_some_iff {m : List (Path × FileState)} {k : Path} {st : FileState}
    (hnodup : (m.map Prod.fst).Nodup) :
    lookupState m k = some st ↔ (k, st) ∈ m :=
  lookup_eq_some_iff hnodup

/-! ### Flatten lemmas -/

theorem flattenDir_cons (it : FilesystemItem) (rest : Directory) :
    flattenDir (it :: rest) = flattenItem it ++ flattenDir rest := by
  rw [flattenDir]

theorem flattenDir_append (l₁ l₂ : Directory) :
    flattenDir (l₁ ++ l₂) = flattenDir l₁ ++ flattenDir l₂ := by
  induction l₁ with
  | nil => rfl
  | cons it rest ih =>
    rw [List.cons_append, flattenDir_cons, flattenDir_cons, ih, List.append_assoc]

theorem mem_flattenDir {x : Path × FileState} :
    ∀ {l : Directory}, x ∈ flattenDir l ↔ ∃ it ∈ l, x ∈ flattenItem it := by
  intro l
  induction l with
  | nil => simp [flattenDir]
  | cons it rest ih =>
    rw [flattenDir_cons]
    simp only [List.mem_append, ih, List.mem_cons]
    constructor
    · rintro (h | ⟨it', hit', hx⟩)
      · exact ⟨it, Or.inl rfl, h⟩
      · exact ⟨it', Or.inr hit', hx⟩
    · rintro ⟨it', h | hit', hx⟩
      · subst h; exact Or.inl hx
      · exact Or.inr ⟨it', hit', hx⟩

theorem flattenItem_file (name : Path) (st : FileState) :
    flattenItem (FilesystemItem.File name st) = [(name, st)] := by
  rw [flattenItem]

theorem flattenItem_dir (name : Option Path) (children : Directory) :
    flattenItem (FilesystemItem.Directory name children) =
      (flattenDir children).map fun e => (joinPre name e.1, e.2) := by
  rw [flattenItem]

/-! ### Level invariant helpers -/

theorem nodupNames_iff : ∀ {l : List (Option Path)}, nodupNames l = true ↔ l.Nodup := by
  intro l
  induction l with
  | nil => simp [nodupNames]
  | cons x xs ih =>
    simp only [nodupNames, Bool.and_eq_true, List.nodup_cons, ih]
    constructor
    · rintro ⟨hc, hn⟩
      refine ⟨?_, hn⟩
      intro hmem
      have : List.elem x xs = true := List.elem_iff.mpr hmem
      rw [show xs.contains x = List.elem x xs from rfl, this] at hc
      exact absurd hc (by simp)
    · rintro ⟨hc, hn⟩
      refine ⟨?_, hn⟩
      cases hb : xs.contains x with
      | false => simp
      | true =>
        exact absurd (List.elem_iff.mp hb) hc

theorem hasDirNamed_iff {acc : Directory} {d : Path} :
    hasDirNamed acc d = true ↔ ∃ sub, FilesystemItem.Directory (some d) sub ∈ acc := by
  rw [hasDirNamed, List.any_eq_true]
  constructor
  · rintro ⟨it, hit, hp⟩
    cases it with
    | File _ _ => simp at hp
    | Directory nm sub =>
      simp only [beq_iff_eq] at hp
      rw [hp] at hit
      exact ⟨sub, hit⟩
  · rintro ⟨sub, hmem⟩
    exact ⟨_, hmem, by simp⟩

theorem dirsFirst_append_of {l₁ l₂ : Directory}
    (h₁ : ∀ it ∈ l₁, isDirItem it = true) (h₂ : ∀ it ∈ l₂, isDirItem it = false) :
    dirsFirst (l₁ ++ l₂) = true := by
  induction l₁ with
  | nil =>
    rw [List.nil_append, dirsFirst]
    cases l₂ with
    | nil => rfl
    | cons it rest =>
      rw [List.dropWhile_cons_of_neg]
      · rw [List.all_eq_true]
        intro it' hit'
        simp [h₂ it' hit']
      · simp [h₂ it (List.mem_cons_self it rest)]
  | cons it rest ih =>
    rw [List.cons_append, dirsFirst, List.dropWhile_cons_of_pos
      (h₁ it (List.mem_cons_self it rest))]
    exact ih fun it' hit' => h₁ it' (List.mem_cons_of_mem it hit')

theorem levelsOkAll_cons (it : FilesystemItem) (rest : Directory) :
    levelsOkAll (it :: rest) = (levelsOkItem it && levelsOkAll rest) := by
  rw [levelsOkAll]

theorem levelsOkAll_append (l₁ l₂ : Directory) :
    levelsOkAll (l₁ ++ l₂) = (levelsOkAll l₁ && levelsOkAll l₂) := by
  induction l₁ with
  | nil => simp [levelsOkAll]
  | cons it rest ih =>
    rw [List.cons_append, levelsOkAll_cons, levelsOkAll_cons, ih, Bool.and_assoc]


/-! ### Node entry lemmas -/

theorem entries_mapM_of_keys (pfx : Option Path) :
    ∀ (l : List (Path × FileState)) (items : List Path),
      (l.map Prod.fst).mapM (keyStrip pfx) = some items →
      ∃ ents, l.mapM (fun e => (keyStrip pfx e.1).map (fun s => (s, e.2))) = some ents ∧
        ents.map Prod.fst = items ∧
        (∀ se ∈ ents, (joinPre pfx se.1, se.2) ∈ l) ∧
        (∀ e ∈ l, ∃ s, keyStrip pfx e.1 = some s ∧ (s, e.2) ∈ ents) := by
  intro l
  induction l with
  | nil =>
    intro items h
    rw [List.map_nil, List.mapM_nil] at h
    simp only [Option.pure_def, Option.some.injEq] at h
    subst h
    exact ⟨[], rfl, rfl, by simp, by simp⟩
  | cons e rest ih =>
    intro items h
    obtain ⟨k, st⟩ := e
    rw [List.map_cons, List.mapM_cons] at h
    cases hk : keyStrip pfx k with
    | none => rw [hk] at h; simp at h
    | some s =>
      rw [hk] at h
      cases hrest : (rest.map Prod.fst).mapM (keyStrip pfx) with
      | none => rw [hrest] at h; simp at h
      | some items' =>
        rw [hrest] at h
        simp only [Option.bind_eq_bind, Option.some_bind, Option.pure_def,
          Option.some.injEq] at h
        subst h
        rcases ih items' hrest with ⟨ents', hmapM, hfst, hback, hforth⟩
        refine ⟨(s, st) :: ents', ?_, ?_, ?_, ?_⟩
        · rw [List.mapM_cons]
          simp only [hk, Option.map_some', hmapM, Option.bind_eq_bind, Option.some_bind,
            Option.pure_def]
        · simp [hfst]
        · intro se hse
          rcases List.mem_cons.mp hse with rfl | hse
          · have hks : k = joinPre pfx s := keyStrip_eq_some.mp hk
            rw [← hks]
            exact List.mem_cons_self _ _
          · exact List.mem_cons_of_mem _ (hback se hse)
        · intro e' he'
          rcases List.mem_cons.mp he' with rfl | he'
          · exact ⟨s, hk, List.mem_cons_self _ _⟩
          · rcases hforth e' he' with ⟨s', hs', hmem⟩
            exact ⟨s', hs', List.mem_cons_of_mem _ hmem⟩

theorem mapM_keyStrip_nodup (pfx : Option Path) :
    ∀ (ks : List Path) (items : List Path),
      ks.mapM (keyStrip pfx) = some items → ks.Nodup → items.Nodup := by
  intro ks
  induction ks with
  | nil =>
    intro items h _
    rw [List.mapM_nil] at h
    simp only [Option.pure_def, Option.some.injEq] at h
    subst h
    exact List.nodup_nil
  | cons k ks' ih =>
    intro items h hnodup
    rw [List.mapM_cons] at h
    cases hk : keyStrip pfx k with
    | none => rw [hk] at h; simp at h
    | some s =>
      rw [hk] at h
      cases hrest : ks'.mapM (keyStrip pfx) with
      | none => rw [hrest] at h; simp at h
      | some items' =>
        rw [hrest] at h
        simp only [Option.bind_eq_bind, Option.some_bind, Option.pure_def,
          Option.some.injEq] at h
        subst h
        rcases List.nodup_cons.mp hnodup with ⟨hknot, hks'⟩
        refine List.nodup_cons.mpr ⟨?_, ih items' hrest hks'⟩
        intro hs
        rcases mapM_mem_of_some (keyStrip pfx) ks' items' hrest s hs with ⟨k', hk', hstrip⟩
        have h1 : k = joinPre pfx s := keyStrip_eq_some.mp hk
        have h2 : k' = joinPre pfx s := keyStrip_eq_some.mp hstrip
        exact hknot (by rw [h1, ← h2]; exact hk')

theorem flatten_fileItems_mem (m : List (Path × FileState)) (pfx : Option Path)
    (files : List Path) (x : Path × FileState) :
    x ∈ flattenDir (files.filterMap (fun f =>
        (lookupState m (joinPre pfx f)).map (fun st => FilesystemItem.File f st))) ↔
      x.1 ∈ files ∧ lookupState m (joinPre pfx x.1) = some x.2 := by
  obtain ⟨x1, x2⟩ := x
  rw [mem_flattenDir]
  constructor
  · rintro ⟨it, hit, hx⟩
    rcases List.mem_filterMap.mp hit with ⟨f, hf, hsome⟩
    cases hl : lookupState m (joinPre pfx f) with
    | none => rw [hl] at hsome; simp at hsome
    | some st =>
      rw [hl] at hsome
      simp only [Option.map_some', Option.some.injEq] at hsome
      subst hsome
      rw [flattenItem_file] at hx
      have := List.mem_singleton.mp hx
      simp only [Prod.mk.injEq] at this
      obtain ⟨rfl, rfl⟩ := this
      exact ⟨hf, hl⟩
  · rintro ⟨hf, hl⟩
    refine ⟨FilesystemItem.File x1 x2, ?_, ?_⟩
    · exact List.mem_filterMap.mpr ⟨x1, hf, by rw [hl]; rfl⟩
    · rw [flattenItem_file]
      exact List.mem_singleton.mpr rfl

theorem flatten_fileItems_keys (m : List (Path × FileState)) (pfx : Option Path) :
    ∀ files : List Path,
      (flattenDir (files.filterMap (fun f =>
          (lookupState m (joinPre pfx f)).map (fun st => FilesystemItem.File f st)))).map
        Prod.fst = files.filter (fun f => (lookupState m (joinPre pfx f)).isSome) := by
  intro files
  induction files with
  | nil => rfl
  | cons f fs ih =>
    rw [List.filterMap_cons, List.filter_cons]
    cases hl : lookupState m (joinPre pfx f) with
    | none => simpa using ih
    | some st =>
      simp only [Option.map_some', Option.isSome_some, if_pos]
      rw [flattenDir_cons, flattenItem_file, List.map_append, ih]
      rfl


theorem nodeEntries_back {m : List (Path × FileState)} {pfx : Option Path}
    {ents : List (Path × FileState)} (h : nodeEntries m pfx = some ents) :
    ∀ se ∈ ents, (joinPre pfx se.1, se.2) ∈ m := by
  intro se hse
  rw [nodeEntries] at h
  rcases mapM_mem_of_some _ _ _ h se hse with ⟨e, he, hge⟩
  cases hk : keyStrip pfx e.1 with
  | none => rw [hk] at hge; simp at hge
  | some s =>
    rw [hk] at hge
    simp only [Option.map_some', Option.some.injEq] at hge
    have h1 : e.1 = joinPre pfx s := keyStrip_eq_some.mp hk
    have hm := (List.mem_filter.mp he).1
    rw [← hge]
    show (joinPre pfx s, e.2) ∈ m
    rw [← h1]
    exact hm

theorem nodeEntries_forth {m : List (Path × FileState)} {pfx : Option Path}
    {ents : List (Path × FileState)} (h : nodeEntries m pfx = some ents) :
    ∀ e ∈ m, keyFilter pfx e.1 = true →
      ∃ s, keyStrip pfx e.1 = some s ∧ (s, e.2) ∈ ents := by
  intro e he hfil
  rw [nodeEntries] at h
  have hef : e ∈ m.filter (fun e => keyFilter pfx e.1) := List.mem_filter.mpr ⟨he, hfil⟩
  rcases mapM_some_of_mem _ _ _ h e hef with ⟨b, hb, hgb⟩
  cases hk : keyStrip pfx e.1 with
  | none => rw [hk] at hgb; simp at hgb
  | some s =>
    rw [hk] at hgb
    simp only [Option.map_some', Option.some.injEq] at hgb
    exact ⟨s, rfl, by rw [hgb]; exact hb⟩

theorem nodeEntries_strip_total {m : List (Path × FileState)} {pfx : Option Path}
    {ents : List (Path × FileState)} (h : nodeEntries m pfx = some ents) :
    ∀ e ∈ m, keyFilter pfx e.1 = true → (keyStrip pfx e.1).isSome = true := by
  intro e he hfil
  rcases nodeEntries_forth h e he hfil with ⟨s, hs, _⟩
  rw [hs]
  rfl

theorem keyFilter_self (p : Path) : keyFilter (some p) p = true :=
  List.isPrefixOf_iff_prefix.mpr (List.prefix_refl p)

theorem keyStrip_self_none (p : Path) : keyStrip (some p) p = none := by
  cases h : keyStrip (some p) p with
  | none => rfl
  | some s =>
    have := keyStrip_eq_some.mp h
    rw [joinPre] at this
    have hcongr := congrArg List.length this
    simp [Nat.add_comm, Nat.add_assoc, Nat.add_left_comm] at hcongr

theorem levelsOkItem_dir (nm : Option Path) (children : Directory) :
    levelsOkItem (FilesystemItem.Directory nm children) = levelsOk children := by
  rw [levelsOkItem, levelsOk]

theorem flatten_dirs_keys :
    ∀ (l : Directory),
      (∀ it ∈ l, ∃ d sub, it = FilesystemItem.Directory (some d) sub ∧
        hasSlash d = false ∧ ((flattenDir sub).map Prod.fst).Nodup) →
      (l.map itemName).Nodup →
      ((flattenDir l).map Prod.fst).Nodup ∧
      (∀ x ∈ (flattenDir l).map Prod.fst,
        hasSlash x = true ∧ some (firstSegment x) ∈ l.map itemName) := by
  intro l
  induction l with
  | nil => simp [flattenDir]
  | cons it rest ih =>
    intro hchar hnn
    rcases hchar it (List.mem_cons_self it rest) with ⟨d, sub, rfl, hd, hsubN⟩
    rw [List.map_cons, List.nodup_cons] at hnn
    obtain ⟨hdnot, hnnrest⟩ := hnn
    obtain ⟨ihN, ihC⟩ := ih (fun it' h => hchar it' (List.mem_cons_of_mem _ h)) hnnrest
    have hheadkeys : (flattenItem (FilesystemItem.Directory (some d) sub)).map Prod.fst
        = ((flattenDir sub).map Prod.fst).map (fun y => d ++ '/' :: y) := by
      rw [flattenItem_dir, List.map_map, List.map_map]
      rfl
    have hheadseg : ∀ x ∈ (flattenItem (FilesystemItem.Directory (some d) sub)).map Prod.fst,
        hasSlash x = true ∧ firstSegment x = d := by
      intro x hx
      rw [hheadkeys] at hx
      rcases List.mem_map.mp hx with ⟨y, _, rfl⟩
      constructor
      · exact hasSlash_iff.mpr (List.mem_append.mpr (Or.inr (List.mem_cons_self '/' y)))
      · exact firstSegment_append hd y
    rw [flattenDir_cons, List.map_append]
    constructor
    · refine List.Nodup.append ?_ ihN ?_
      · rw [hheadkeys]
        refine List.Nodup.map ?_ hsubN
        intro a b hab
        simpa using List.append_cancel_left hab
      · intro x hx1 hx2
        have hseg := (hheadseg x hx1).2
        have hrest := (ihC x hx2).2
        rw [hseg] at hrest
        exact hdnot hrest
    · intro x hx
      rcases List.mem_append.mp hx with hx | hx
      · rcases hheadseg x hx with ⟨hs, hseg⟩
        refine ⟨hs, ?_⟩
        rw [hseg, List.map_cons]
        exact List.mem_cons_self _ _
      · rcases ihC x hx with ⟨hs, hseg⟩
        refine ⟨hs, ?_⟩
        rw [List.map_cons]
        exact List.mem_cons_of_mem _ hseg

theorem fileItems_names (m : List (Path × FileState)) (pfx : Option Path) :
    ∀ files : List Path,
      (files.filterMap (fun f =>
          (lookupState m (joinPre pfx f)).map (fun st => FilesystemItem.File f st))).map
        itemName
      = (files.filter (fun f => (lookupState m (joinPre pfx f)).isSome)).map some := by
  intro files
  induction files with
  | nil => rfl
  | cons f fs ih =>
    rw [List.filterMap_cons, List.filter_cons]
    cases hl : lookupState m (joinPre pfx f) with
    | none => simpa using ih
    | some st =>
      simp only [Option.map_some', Option.isSome_some, if_pos]
      rw [List.map_cons, List.map_cons, ih]
      rfl

theorem fileItems_all_file (m : List (Path × FileState)) (pfx : Option Path)
    (files : List Path) :
    ∀ it ∈ files.filterMap (fun f =>
        (lookupState m (joinPre pfx f)).map (fun st => FilesystemItem.File f st)),
      isDirItem it = false ∧ levelsOkItem it = true := by
  intro it hit
  rcases List.mem_filterMap.mp hit with ⟨f, _, hsome⟩
  cases hl : lookupState m (joinPre pfx f) with
  | none => rw [hl] at hsome; simp at hsome
  | some st =>
    rw [hl] at hsome
    simp only [Option.map_some', Option.some.injEq] at hsome
    subst hsome
    exact ⟨rfl, rfl⟩


theorem levelsOkAll_iff :
    ∀ {l : Directory}, levelsOkAll l = true ↔ ∀ it ∈ l, levelsOkItem it = true := by
  intro l
  induction l with
  | nil => simp [levelsOkAll]
  | cons it rest ih =>
    rw [levelsOkAll_cons, Bool.and_eq_true, ih]
    constructor
    · rintro ⟨h1, h2⟩ it' hit'
      rcases List.mem_cons.mp hit' with rfl | hit'
      · exact h1
      · exact h2 it' hit'
    · intro h
      exact ⟨h it (List.mem_cons_self it rest),
        fun it' hit' => h it' (List.mem_cons_of_mem _ hit')⟩

theorem unflattenDirLoop_step (m : List (Path × FileState)) (f : Nat)
    (ihAux : ∀ pfx dir, unflattenAux m f pfx = some dir → NodeSpec m pfx dir)
    (ihLoop : ∀ pfx ds acc out, unflattenDirLoop m f pfx ds acc = some out →
      AccOk m pfx acc → LoopSpec m pfx ds acc out) :
    ∀ pfx ds acc out, unflattenDirLoop m (f + 1) pfx ds acc = some out →
      AccOk m pfx acc → LoopSpec m pfx ds acc out := by
  intro pfx ds acc out hloop hacc
  cases ds with
  | nil =>
    rw [unflattenDirLoop] at hloop
    simp only [Option.some.injEq] at hloop
    subst hloop
    refine ⟨[], (List.append_nil acc).symm, ?_, ?_, fun h => h⟩
    · intro it hit; exact absurd hit (List.not_mem_nil it)
    · intro d hd; exact absurd hd (List.not_mem_nil d)
  | cons d ds' =>
    rw [unflattenDirLoop] at hloop
    by_cases hdup : hasDirNamed acc d = true
    · rw [if_pos hdup] at hloop
      rcases ihLoop pfx ds' acc out hloop hacc with ⟨ext, hout, hext, hall, hnn⟩
      refine ⟨ext, hout, ?_, ?_, hnn⟩
      · intro it hit
        rcases hext it hit with ⟨d', sub, heq, hd', hns⟩
        exact ⟨d', sub, heq, List.mem_cons_of_mem d hd', hns⟩
      · intro d'' hd''
        rcases List.mem_cons.mp hd'' with rfl | hd''
        · rcases hasDirNamed_iff.mp hdup with ⟨sub, hsub⟩
          rcases hacc _ hsub with ⟨nm, sub', heq, hns⟩
          injection heq with h1 h2
          injection h1 with h1
          subst h1
          subst h2
          refine ⟨sub, ?_, hns⟩
          rw [hout]
          exact List.mem_append.mpr (Or.inl hsub)
        · exact hall d'' hd''
    · rw [if_neg hdup] at hloop
      cases hAux : unflattenAux m f (some (joinPre pfx d)) with
      | none => rw [hAux] at hloop; exact absurd hloop (by simp)
      | some sub =>
        rw [hAux] at hloop
        have hnsd : NodeSpec m (some (joinPre pfx d)) sub := ihAux _ _ hAux
        have hacc' : AccOk m pfx (acc ++ [FilesystemItem.Directory (some d) sub]) := by
          intro it hit
          rcases List.mem_append.mp hit with hit | hit
          · exact hacc it hit
          · rcases List.mem_singleton.mp hit with rfl
            exact ⟨d, sub, rfl, hnsd⟩
        rcases ihLoop pfx ds' _ out hloop hacc' with ⟨ext', hout, hext', hall', hnn'⟩
        refine ⟨FilesystemItem.Directory (some d) sub :: ext', ?_, ?_, ?_, ?_⟩
        · rw [hout, List.append_assoc]
          rfl
        · intro it hit
          rcases List.mem_cons.mp hit with rfl | hit
          · exact ⟨d, sub, rfl, List.mem_cons_self _ _, hnsd⟩
          · rcases hext' it hit with ⟨d', sub', heq, hd', hns'⟩
            exact ⟨d', sub', heq, List.mem_cons_of_mem _ hd', hns'⟩
        · intro d'' hd''
          rcases List.mem_cons.mp hd'' with rfl | hd''
          · refine ⟨sub, ?_, hnsd⟩
            rw [hout]
            exact List.mem_append.mpr (Or.inl (List.mem_append.mpr (Or.inr
              (List.mem_singleton.mpr rfl))))
          · exact hall' d'' hd''
        · intro hna
          apply hnn'
          rw [List.map_append]
          rw [nodupNames_iff] at hna ⊢
          refine List.Nodup.append hna (by simp) ?_
          intro x hx1 hx2
          simp only [List.map_cons, List.map_nil, List.mem_singleton] at hx2
          subst hx2
          rcases List.mem_map.mp hx1 with ⟨it, hit, hname⟩
          rcases hacc it hit with ⟨nm, sub'', heq, _⟩
          subst heq
          simp only [itemName, Option.some.injEq] at hname
          subst hname
          exact absurd (hasDirNamed_iff.mpr ⟨sub'', hit⟩) hdup


theorem unflattenAux_step (m : List (Path × FileState))
    (hnodup : (m.map Prod.fst).Nodup) (f : Nat)
    (ihLoop : ∀ pfx ds acc out, unflattenDirLoop m f pfx ds acc = some out →
      AccOk m pfx acc → LoopSpec m pfx ds acc out) :
    ∀ pfx dir, unflattenAux m (f + 1) pfx = some dir → NodeSpec m pfx dir := by
  intro pfx dir hsucc
  rw [unflattenAux] at hsucc
  split at hsucc
  · exact absurd hsucc (by simp)
  · rename_i items hitems
    split at hsucc
    · exact absurd hsucc (by simp)
    · rename_i childrenDirs hloop
      simp only [Option.some.injEq] at hsucc
      subst hsucc
      have hfm : (m.map Prod.fst).filter (keyFilter pfx)
          = (m.filter (fun e => keyFilter pfx e.1)).map Prod.fst := by
        rw [List.filter_map]
        rfl
      rw [hfm] at hitems
      rcases entries_mapM_of_keys pfx _ items hitems with
        ⟨ents, hentsM, hfstents, hback, hforth⟩
      have hne : nodeEntries m pfx = some ents := by
        rw [nodeEntries]; exact hentsM
      have hfilterNodup : ((m.filter (fun e => keyFilter pfx e.1)).map Prod.fst).Nodup := by
        rw [← hfm]
        exact hnodup.filter _
      have hitemsNodup : items.Nodup := mapM_keyStrip_nodup pfx _ items hitems hfilterNodup
      have haccnil : AccOk m pfx [] := by
        intro it hit; exact absurd hit (List.not_mem_nil it)
      rcases ihLoop pfx _ [] childrenDirs hloop haccnil with
        ⟨ext, hcd, hextChar, hallDirs, hnnPres⟩
      rw [List.nil_append] at hcd
      subst hcd
      have hentsOfKey : ∀ (x : Path) (st : FileState),
          (joinPre pfx x, st) ∈ m → (x, st) ∈ ents := by
        intro x st hmem
        have hfil : keyFilter pfx (joinPre pfx x) = true := keyFilter_joinPre pfx x
        rcases hforth (joinPre pfx x, st) (List.mem_filter.mpr ⟨hmem, hfil⟩) with
          ⟨s, hs, hmem'⟩
        rw [keyStrip_joinPre] at hs
        injection hs with hs
        subst hs
        exact hmem'
      have hkeyOfEnts : ∀ (x : Path) (st : FileState), (x, st) ∈ ents →
          (joinPre pfx x, st) ∈ m ∧ x ∈ items := by
        intro x st hx
        constructor
        · exact (List.mem_filter.mp (hback (x, st) hx)).1
        · rw [← hfstents]; exact List.mem_map_of_mem Prod.fst hx
      have hdirchar : ∀ it ∈ childrenDirs, ∃ d sub,
          it = FilesystemItem.Directory (some d) sub ∧ hasSlash d = false ∧
          ((flattenDir sub).map Prod.fst).Nodup ∧
          NodeSpec m (some (joinPre pfx d)) sub ∧
          d ∈ (items.filter hasSlash).map firstSegment := by
        intro it hit
        rcases hextChar it hit with ⟨d, sub, heq, hd, hns⟩
        have hdnoslash : hasSlash d = false := by
          rcases List.mem_map.mp hd with ⟨s, _, hfs⟩
          rw [← hfs]
          exact firstSegment_no_slash s
        rcases hns with ⟨eC, hneC, hmemC, hndC, hlvC⟩
        exact ⟨d, sub, heq, hdnoslash, hndC, ⟨eC, hneC, hmemC, hndC, hlvC⟩, hd⟩
      have hcdnames : nodupNames (childrenDirs.map itemName) = true := hnnPres rfl
      have hcdnamesN : (childrenDirs.map itemName).Nodup := nodupNames_iff.mp hcdnames
      have hmemIff : ∀ e : Path × FileState,
          e ∈ flattenDir (childrenDirs ++ (items.filter (fun s => !hasSlash s)).filterMap (fun fnm =>
            (lookupState m (joinPre pfx fnm)).map
              (fun st => FilesystemItem.File fnm st))) ↔ e ∈ ents := by
        intro e
        obtain ⟨e1, e2⟩ := e
        rw [flattenDir_append, List.mem_append, flatten_fileItems_mem]
        constructor
        · rintro (hdir | hfile)
          · rcases mem_flattenDir.mp hdir with ⟨it, hit, hx⟩
            rcases hdirchar it hit with ⟨d, sub, heq, hdns, _, ⟨eC, hneC, hmemC, _, _⟩, _⟩
            subst heq
            rw [flattenItem_dir] at hx
            rcases List.mem_map.mp hx with ⟨e', he', heq2⟩
            simp only [Prod.mk.injEq] at heq2
            obtain ⟨heq1, heq2⟩ := heq2
            subst heq1
            subst heq2
            have horig := nodeEntries_back hneC e' ((hmemC e').mp he')
            have hkeyrw : joinPre (some (joinPre pfx d)) e'.1
                = joinPre pfx (joinPre (some d) e'.1) := by
              rw [show joinPre (some d) e'.1 = d ++ '/' :: e'.1 from rfl, joinPre_extend]
              rfl
            rw [hkeyrw] at horig
            exact hentsOfKey _ _ horig
          · obtain ⟨hf, hlook⟩ := hfile
            exact hentsOfKey e1 e2 ((lookupState_eq_some_iff hnodup).mp hlook)
        · intro hents
          have he1items : e1 ∈ items := (hkeyOfEnts e1 e2 hents).2
          by_cases hsl : hasSlash e1 = true
          · left
            rcases hasSlash_decomp hsl with ⟨r, hr⟩
            have hd0 : firstSegment e1 ∈ (items.filter hasSlash).map firstSegment :=
              List.mem_map_of_mem firstSegment (List.mem_filter.mpr ⟨he1items, hsl⟩)
            rcases hallDirs _ hd0 with ⟨sub, hsubMem, ⟨eC, hneC, hmemC, _, _⟩⟩
            have hkeym : (joinPre pfx e1, e2) ∈ m := (hkeyOfEnts e1 e2 hents).1
            have hrw : joinPre pfx e1
                = joinPre (some (joinPre pfx (firstSegment e1))) r := by
              rw [show joinPre (some (joinPre pfx (firstSegment e1))) r
                  = joinPre pfx (firstSegment e1) ++ '/' :: r from rfl, ← joinPre_extend,
                ← hr]
            have hfilC : keyFilter (some (joinPre pfx (firstSegment e1)))
                (joinPre pfx e1) = true := by
              rw [hrw]; exact keyFilter_joinPre _ _
            rcases nodeEntries_forth hneC (joinPre pfx e1, e2) hkeym hfilC with
              ⟨s, hs, hsC⟩
            have hstrip : keyStrip (some (joinPre pfx (firstSegment e1)))
                (joinPre pfx e1) = some r := by
              rw [hrw]; exact keyStrip_joinPre _ _
            rw [hstrip] at hs
            injection hs with hs
            subst hs
            have hflat := (hmemC (r, e2)).mpr hsC
            apply mem_flattenDir.mpr
            refine ⟨_, hsubMem, ?_⟩
            rw [flattenItem_dir]
            apply List.mem_map.mpr
            refine ⟨(r, e2), hflat, ?_⟩
            simp only [Prod.mk.injEq]
            refine ⟨?_, trivial⟩
            rw [show joinPre (some (firstSegment e1)) r = firstSegment e1 ++ '/' :: r
              from rfl, ← hr]
          · right
            refine ⟨?_, ?_⟩
            · rw [Bool.not_eq_true] at hsl
              exact List.mem_filter.mpr ⟨he1items, by rw [hsl]; rfl⟩
            · exact (lookupState_eq_some_iff hnodup).mpr (hkeyOfEnts e1 e2 hents).1
      have hdirblock := flatten_dirs_keys childrenDirs
        (fun it hit => by
          rcases hdirchar it hit with ⟨d, sub, heq, hd, hnd, _, _⟩
          exact ⟨d, sub, heq, hd, hnd⟩)
        hcdnamesN
      obtain ⟨hdirN, hdirChar2⟩ := hdirblock
      have hnodupKeys : ((flattenDir (childrenDirs ++ (items.filter (fun s =>
          !hasSlash s)).filterMap (fun fnm =>
            (lookupState m (joinPre pfx fnm)).map
              (fun st => FilesystemItem.File fnm st)))).map Prod.fst).Nodup := by
        rw [flattenDir_append, List.map_append]
        refine List.Nodup.append hdirN ?_ ?_
        · rw [flatten_fileItems_keys]
          exact (hitemsNodup.filter _).filter _
        · intro x hx1 hx2
          have hxs := (hdirChar2 x hx1).1
          rw [flatten_fileItems_keys] at hx2
          have hxi := List.mem_filter.mp (List.mem_filter.mp hx2).1
          have hxb := hxi.2
          simp only [hxs] at hxb
          exact absurd hxb (by simp)
      have hdirsAll : ∀ it ∈ childrenDirs, isDirItem it = true := by
        intro it hit
        rcases hdirchar it hit with ⟨d, sub, heq, _⟩
        subst heq
        rfl
      have hfilesAll := fileItems_all_file m pfx (items.filter (fun s => !hasSlash s))
      have hlv : levelsOk (childrenDirs ++ (items.filter (fun s => !hasSlash s)).filterMap
          (fun fnm => (lookupState m (joinPre pfx fnm)).map
            (fun st => FilesystemItem.File fnm st))) = true := by
        rw [levelsOk, Bool.and_eq_true, Bool.and_eq_true]
        refine ⟨⟨?_, ?_⟩, ?_⟩
        · exact dirsFirst_append_of hdirsAll (fun it hit => (hfilesAll it hit).1)
        · rw [List.map_append, nodupNames_iff]
          refine List.Nodup.append hcdnamesN ?_ ?_
          · rw [fileItems_names]
            exact List.Nodup.map (fun a b hab => Option.some.inj hab)
              ((hitemsNodup.filter _).filter _)
          · intro x hx1 hx2
            rcases List.mem_map.mp hx1 with ⟨it, hit, hxname⟩
            rcases hdirchar it hit with ⟨d, sub, heq, _, _, ⟨eC, hneC, _, _, _⟩, _⟩
            subst heq
            rw [fileItems_names] at hx2
            rcases List.mem_map.mp hx2 with ⟨fnm, hfnm, hxf⟩
            have hdf : d = fnm := by
              rw [← hxf] at hxname
              simp only [itemName, Option.some.injEq] at hxname
              exact hxname
            subst hdf
            have hfd : d ∈ items := (List.mem_filter.mp (List.mem_filter.mp hfnm).1).1
            have hstate : ∃ st, (d, st) ∈ ents := by
              rw [← hfstents] at hfd
              rcases List.mem_map.mp hfd with ⟨se, hse, hfst⟩
              refine ⟨se.2, ?_⟩
              have : se = (d, se.2) := by
                rw [← hfst]
              rw [← this]
              exact hse
            rcases hstate with ⟨st, hdst⟩
            have hkeym : (joinPre pfx d, st) ∈ m := (hkeyOfEnts d st hdst).1
            have htot := nodeEntries_strip_total hneC (joinPre pfx d, st) hkeym
              (keyFilter_self _)
            rw [keyStrip_self_none] at htot
            exact absurd htot (by simp)
        · rw [levelsOkAll_append, Bool.and_eq_true]
          constructor
          · rw [levelsOkAll_iff]
            intro it hit
            rcases hdirchar it hit with ⟨d, sub, heq, _, _, ⟨_, _, _, _, hlvC⟩, _⟩
            subst heq
            rw [levelsOkItem_dir]
            exact hlvC
          · rw [levelsOkAll_iff]
            intro it hit
            exact (hfilesAll it hit).2
      exact ⟨ents, hne, hmemIff, hnodupKeys, hlv⟩


theorem unflatten_spec_all (m : List (Path × FileState))
    (hnodup : (m.map Prod.fst).Nodup) :
    ∀ fuel : Nat,
      (∀ pfx dir, unflattenAux m fuel pfx = some dir → NodeSpec m pfx dir) ∧
      (∀ pfx ds acc out, unflattenDirLoop m fuel pfx ds acc = some out →
        AccOk m pfx acc → LoopSpec m pfx ds acc out) := by
  intro fuel
  induction fuel with
  | zero =>
    constructor
    · intro pfx dir h
      rw [unflattenAux] at h
      exact absurd h (by simp)
    · intro pfx ds acc out h _
      rw [unflattenDirLoop] at h
      exact absurd h (by simp)
  | succ f ihf =>
    obtain ⟨ihAux, ihLoop⟩ := ihf
    exact ⟨unflattenAux_step m hnodup f ihLoop,
      unflattenDirLoop_step m f ihAux ihLoop⟩

theorem mapM_keyStrip_none : ∀ (l : List (Path × FileState)),
    l.mapM (fun e => (keyStrip none e.1).map (fun s => (s, e.2))) = some l := by
  intro l
  induction l with
  | nil => rfl
  | cons e rest ih =>
    rw [List.mapM_cons, ih]
    rfl

theorem nodeEntries_none (m : List (Path × FileState)) : nodeEntries m none = some m := by
  rw [nodeEntries]
  have h1 : m.filter (fun e => keyFilter none e.1) = m :=
    List.filter_eq_self.mpr (fun e _ => rfl)
  rw [h1]
  exact mapM_keyStrip_none m

/-- Claim C3 (amended): `unflatten_tree` is a deterministic function of the
flat map, but it is not total: it panics (modelled as `none`) when a
directory prefix it recurses into is a string prefix of another key without
a `/` at the boundary.  Whenever it does return a tree, that tree holds
exactly the paths of the map: flattening the nesting by joining names with
`/` reaches every key with its state, reaches nothing else, and no
flattened path occurs twice. -/
theorem unflatten_tree_exact (m : List (Path × FileState))
    (hnodup : (m.map Prod.fst).Nodup) (dir : Directory)
    (h : unflatten_tree m none = some dir) :
    (∀ e : Path × FileState, e ∈ flattenDir dir ↔ e ∈ m) ∧
    ((flattenDir dir).map Prod.fst).Nodup := by
  rcases (unflatten_spec_all m hnodup (unflattenFuel m)).1 none dir h with
    ⟨ents, hne, hmem, hnd, _⟩
  rw [nodeEntries_none] at hne
  injection hne with hne
  subst hne
  exact ⟨hmem, hnd⟩

/-- Witness for C3 at a concrete two-entry map producing one directory and
one root file. -/
theorem unflatten_tree_exact_witness :
    (∀ e : Path × FileState,
      e ∈ flattenDir [FilesystemItem.Directory (some "b".data)
            [FilesystemItem.File "c".data FileState.Modified],
          FilesystemItem.File "a".data FileState.Added] ↔
        e ∈ [("a".data, FileState.Added), ("b/c".data, FileState.Modified)]) ∧
    ((flattenDir [FilesystemItem.Directory (some "b".data)
        [FilesystemItem.File "c".data FileState.Modified],
      FilesystemItem.File "a".data FileState.Added]).map Prod.fst).Nodup :=
  unflatten_tree_exact [("a".data, FileState.Added), ("b/c".data, FileState.Modified)]
    (by decide) _ rfl

/-- Claim C3 counterexample: on the flat map with keys `a/y` and `ab/x` the
Rust original panics — `"ab/x"` passes the `starts_with("a")` filter of the
recursion into directory `a` but `strip_prefix("a/")` fails, so the
`.unwrap()` panics; the model returns `none`, not a tree, refuting
totality. -/
theorem unflatten_tree_panic_counterexample :
    unflatten_tree [("a/y".data, FileState.Added), ("ab/x".data, FileState.Added)] none
      = none := rfl

/-- Claim C9: in every directory level of a tree produced by a successful
`unflatten_tree` run, all `Directory` items precede all `File` items and no
two sibling items share a name (checked recursively by `levelsOk`). -/
theorem unflatten_tree_levels (m : List (Path × FileState))
    (hnodup : (m.map Prod.fst).Nodup) (dir : Directory)
    (h : unflatten_tree m none = some dir) :
    levelsOk dir = true := by
  rcases (unflatten_spec_all m hnodup (unflattenFuel m)).1 none dir h with
    ⟨_, _, _, _, hlv⟩
  exact hlv

/-- Witness for C9 at a concrete map with two nesting levels. -/
theorem unflatten_tree_levels_witness :
    levelsOk [FilesystemItem.Directory (some "x".data)
      [FilesystemItem.Directory (some "y".data)
        [FilesystemItem.File "z".data FileState.Added],
       FilesystemItem.File "w".data FileState.Removed]] = true :=
  unflatten_tree_levels [("x/y/z".data, FileState.Added), ("x/w".data, FileState.Removed)]
    (by decide) _ rfl


/-! ### Classification lemmas (C4) -/

theorem classifyTrees_removed_iff {o n : List (Path × HashStr)} {p : Path} :
    (p, FileState.Removed) ∈ classifyTrees o n ↔
      (∃ h, (p, h) ∈ o) ∧ n.lookup p = none := by
  rw [classifyTrees, List.mem_append, List.mem_filterMap, List.mem_filterMap]
  constructor
  · rintro (⟨e, he, hsome⟩ | ⟨e, he, hsome⟩)
    · split at hsome
      · split at hsome
        · simp at hsome
        · exact absurd hsome (by simp)
      · rename_i hl
        simp only [Option.some.injEq, Prod.mk.injEq] at hsome
        obtain ⟨h1, _⟩ := hsome
        subst h1
        exact ⟨⟨e.2, he⟩, hl⟩
    · split at hsome
      · simp at hsome
      · exact absurd hsome (by simp)
  · rintro ⟨⟨h, hmem⟩, hnone⟩
    refine Or.inl ⟨(p, h), hmem, ?_⟩
    rw [show ((p, h) : Path × HashStr).1 = p from rfl, hnone]

theorem classifyTrees_modified_iff {o n : List (Path × HashStr)} {p : Path}
    (hnew : (n.map Prod.fst).Nodup) :
    (p, FileState.Modified) ∈ classifyTrees o n ↔
      ∃ ho hn, (p, ho) ∈ o ∧ (p, hn) ∈ n ∧ ho ≠ hn := by
  rw [classifyTrees, List.mem_append, List.mem_filterMap, List.mem_filterMap]
  constructor
  · rintro (⟨e, he, hsome⟩ | ⟨e, he, hsome⟩)
    · split at hsome
      · rename_i nh hl
        split at hsome
        · rename_i hne
          simp only [Option.some.injEq, Prod.mk.injEq] at hsome
          obtain ⟨h1, _⟩ := hsome
          subst h1
          exact ⟨e.2, nh, he, (lookup_eq_some_iff hnew).mp hl, hne⟩
        · exact absurd hsome (by simp)
      · simp at hsome
    · split at hsome
      · simp at hsome
      · exact absurd hsome (by simp)
  · rintro ⟨ho, hn, hmo, hmn, hne⟩
    refine Or.inl ⟨(p, ho), hmo, ?_⟩
    rw [show ((p, ho) : Path × HashStr).1 = p from rfl,
      (lookup_eq_some_iff hnew).mpr hmn]
    show (if ho ≠ hn then some (p, FileState.Modified) else none)
      = some (p, FileState.Modified)
    rw [if_pos hne]

theorem classifyTrees_added_iff {o n : List (Path × HashStr)} {p : Path} :
    (p, FileState.Added) ∈ classifyTrees o n ↔
      (∃ h, (p, h) ∈ n) ∧ o.lookup p = none := by
  rw [classifyTrees, List.mem_append, List.mem_filterMap, List.mem_filterMap]
  constructor
  · rintro (⟨e, he, hsome⟩ | ⟨e, he, hsome⟩)
    · split at hsome
      · split at hsome
        · simp at hsome
        · exact absurd hsome (by simp)
      · simp at hsome
    · split at hsome
      · rename_i hi
        simp only [Option.some.injEq, Prod.mk.injEq] at hsome
        obtain ⟨h1, _⟩ := hsome
        subst h1
        exact ⟨⟨e.2, he⟩, Option.isNone_iff_eq_none.mp hi⟩
      · exact absurd hsome (by simp)
  · rintro ⟨⟨h, hmem⟩, hnone⟩
    refine Or.inr ⟨(p, h), hmem, ?_⟩
    rw [show ((p, h) : Path × HashStr).1 = p from rfl, hnone]
    rfl

theorem classifyTrees_self (t : List (Path × HashStr))
    (ht : (t.map Prod.fst).Nodup) : classifyTrees t t = [] := by
  rw [classifyTrees, List.append_eq_nil]
  constructor
  · rw [List.filterMap_eq_nil_iff]
    intro e he
    have hl : t.lookup e.1 = some e.2 := (lookup_eq_some_iff ht).mpr he
    simp [hl]
  · rw [List.filterMap_eq_nil_iff]
    intro e he
    have hl : t.lookup e.1 = some e.2 := (lookup_eq_some_iff ht).mpr he
    simp [hl]

/-- Claim C4: the classification step marks a path `Removed` iff it is in
the old snapshot and absent from the new, `Modified` iff it is in both with
different digests, `Added` iff it is in the new snapshot and absent from the
old, and omits every path whose digests are equal in both; diffing a
directory snapshot against itself yields a `FolderDiff` with no entries. -/
theorem calculate_folder_diff_classification
    (oldTree newTree : List (Path × HashStr))
    (hold : (oldTree.map Prod.fst).Nodup) (hnew : (newTree.map Prod.fst).Nodup) :
    (∀ p : Path,
      ((p, FileState.Removed) ∈ classifyTrees oldTree newTree ↔
        (∃ h, (p, h) ∈ oldTree) ∧ newTree.lookup p = none) ∧
      ((p, FileState.Modified) ∈ classifyTrees oldTree newTree ↔
        ∃ ho hn, (p, ho) ∈ oldTree ∧ (p, hn) ∈ newTree ∧ ho ≠ hn) ∧
      ((p, FileState.Added) ∈ classifyTrees oldTree newTree ↔
        (∃ h, (p, h) ∈ newTree) ∧ oldTree.lookup p = none) ∧
      (∀ h st, oldTree.lookup p = some h → newTree.lookup p = some h →
        (p, st) ∉ classifyTrees oldTree newTree)) ∧
    classifyTrees oldTree oldTree = [] ∧
    (∀ po pn, calculate_folder_diff po pn oldTree oldTree = some ⟨po, pn, []⟩) := by
  refine ⟨?_, classifyTrees_self oldTree hold, ?_⟩
  · intro p
    refine ⟨classifyTrees_removed_iff, classifyTrees_modified_iff hnew,
      classifyTrees_added_iff, ?_⟩
    intro h st hlo hln hmem
    cases st with
    | Removed =>
      have := (classifyTrees_removed_iff.mp hmem).2
      rw [hln] at this
      exact absurd this (by simp)
    | Modified =>
      rcases (classifyTrees_modified_iff hnew).mp hmem with ⟨ho, hn, hmo, hmn, hne⟩
      have h1 : oldTree.lookup p = some ho := (lookup_eq_some_iff hold).mpr hmo
      have h2 : newTree.lookup p = some hn := (lookup_eq_some_iff hnew).mpr hmn
      rw [hlo] at h1
      rw [hln] at h2
      injection h1 with h1
      injection h2 with h2
      exact hne (by rw [← h1, ← h2])
    | Added =>
      have := (classifyTrees_added_iff.mp hmem).2
      rw [hlo] at this
      exact absurd this (by simp)
  · intro po pn
    rw [calculate_folder_diff, classifyTrees_self oldTree hold]
    rfl

/-- Witness for C4: self-diffing a concrete one-file snapshot yields the
empty `FolderDiff`. -/
theorem calculate_folder_diff_classification_witness :
    calculate_folder_diff "old".data "new".data [("a".data, "h1".data)]
      [("a".data, "h1".data)] = some ⟨"old".data, "new".data, []⟩ :=
  (calculate_folder_diff_classification [("a".data, "h1".data)] [("a".data, "h1".data)]
    (by decide) (by decide)).2.2 "old".data "new".data


/-! ### Archive decoder lemmas (C5, C6, C10) -/

theorem readU32_some_length {stream : List Nat} {p v : Nat}
    (h : readU32 stream p = some v) : p + 4 ≤ stream.length := by
  have hlen := List.length_drop p stream
  rw [readU32] at h
  cases hd : stream.drop p with
  | nil => rw [hd] at h; exact absurd h (by simp)
  | cons b0 t0 =>
    cases t0 with
    | nil => rw [hd] at h; exact absurd h (by simp)
    | cons b1 t1 =>
      cases t1 with
      | nil => rw [hd] at h; exact absurd h (by simp)
      | cons b2 t2 =>
        cases t2 with
        | nil => rw [hd] at h; exact absurd h (by simp)
        | cons b3 rest =>
          rw [hd] at hlen
          simp only [List.length_cons] at hlen
          omega

theorem readU32_isSome_of_length {stream : List Nat} {p : Nat}
    (h : p + 4 ≤ stream.length) : ∃ v, readU32 stream p = some v := by
  have hlen := List.length_drop p stream
  rw [readU32]
  cases hd : stream.drop p with
  | nil =>
    rw [hd] at hlen
    simp only [List.length_nil] at hlen
    omega
  | cons b0 t0 =>
    cases t0 with
    | nil =>
      rw [hd] at hlen
      simp only [List.length_cons, List.length_nil] at hlen
      omega
    | cons b1 t1 =>
      cases t1 with
      | nil =>
        rw [hd] at hlen
        simp only [List.length_cons, List.length_nil] at hlen
        omega
      | cons b2 t2 =>
        cases t2 with
        | nil =>
          rw [hd] at hlen
          simp only [List.length_cons, List.length_nil] at hlen
          omega
        | cons b3 rest => exact ⟨_, rfl⟩

theorem readSlice_length {stream : List Nat} {pos len : Nat} {bs : List Nat}
    (h : readSlice stream pos len = some bs) : bs.length = len := by
  rw [readSlice] at h
  by_cases h0 : len = 0
  · rw [if_pos h0] at h
    injection h with h
    rw [← h, h0]
    rfl
  · rw [if_neg h0] at h
    by_cases h1 : pos + len ≤ stream.length
    · rw [if_pos h1] at h
      injection h with h
      rw [← h]
      rw [List.length_take, List.length_drop]
      omega
    · rw [if_neg h1] at h
      exact absurd h (by simp)

theorem readSlice_eq_slice {stream : List Nat} {pos len : Nat} {bs : List Nat}
    (h : readSlice stream pos len = some bs) : bs = (stream.drop pos).take len := by
  rw [readSlice] at h
  by_cases h0 : len = 0
  · rw [if_pos h0] at h
    injection h with h
    rw [← h, h0, List.take_zero]
  · rw [if_neg h0] at h
    by_cases h1 : pos + len ≤ stream.length
    · rw [if_pos h1] at h
      injection h with h
      rw [← h]
    · rw [if_neg h1] at h
      exact absurd h (by simp)

mutual

theorem walk_tree_spec (stream : List Nat) (base : Nat) :
    ∀ (e : AsarEntry) (path : Path) (t : FileTree),
      walk_tree stream base e path = some (.ok t) →
      (∀ pb ∈ t, ∃ fe ∈ entryFiles e path, pb.1 = fe.1 ∧
        ∃ off, parseUsize fe.2.1 = some off ∧
          readSlice stream ((base + off) % 2 ^ 64) fe.2.2 = some pb.2) ∧
      (∀ fe ∈ entryFiles e path, ∃ off data, parseUsize fe.2.1 = some off ∧
        fe.2.2 < 2 ^ 63 ∧
        readSlice stream ((base + off) % 2 ^ 64) fe.2.2 = some data ∧ (fe.1, data) ∈ t)
  | AsarEntry.Directory files, path, t => by
    intro h
    rw [walk_tree] at h
    rw [entryFiles]
    exact walkList_spec stream base files path t h
  | AsarEntry.File offsetStr size, path, t => by
    intro h
    rw [walk_tree] at h
    split at h
    · exact absurd h (by simp)
    · rename_i off hoff
      by_cases hsz : size < 2 ^ 63
      · rw [if_pos hsz] at h
        split at h
        · exact absurd h (by simp)
        · rename_i data hdata
          simp only [Option.some.injEq, Except.ok.injEq] at h
          subst h
          constructor
          · intro pb hpb
            rcases List.mem_singleton.mp hpb with rfl
            exact ⟨(path, offsetStr, size),
              by rw [entryFiles]; exact List.mem_singleton.mpr rfl,
              rfl, off, hoff, hdata⟩
          · intro fe hfe
            rw [entryFiles] at hfe
            rcases List.mem_singleton.mp hfe with rfl
            exact ⟨off, data, hoff, hsz, hdata, List.mem_singleton.mpr rfl⟩
      · rw [if_neg hsz] at h
        exact absurd h (by simp)

theorem walkList_spec (stream : List Nat) (base : Nat) :
    ∀ (files : List (Path × AsarEntry)) (path : Path) (t : FileTree),
      walkList stream base files path = some (.ok t) →
      (∀ pb ∈ t, ∃ fe ∈ entryFilesList files path, pb.1 = fe.1 ∧
        ∃ off, parseUsize fe.2.1 = some off ∧
          readSlice stream ((base + off) % 2 ^ 64) fe.2.2 = some pb.2) ∧
      (∀ fe ∈ entryFilesList files path, ∃ off data, parseUsize fe.2.1 = some off ∧
        fe.2.2 < 2 ^ 63 ∧
        readSlice stream ((base + off) % 2 ^ 64) fe.2.2 = some data ∧ (fe.1, data) ∈ t)
  | [], path, t => by
    intro h
    rw [walkList] at h
    simp only [Option.some.injEq, Except.ok.injEq] at h
    subst h
    constructor
    · intro pb hpb; exact absurd hpb (List.not_mem_nil pb)
    · intro fe hfe
      rw [entryFilesList] at hfe
      exact absurd hfe (List.not_mem_nil fe)
  | (nm, ent) :: rest, path, t => by
    intro h
    rw [walkList] at h
    split at h
    · exact absurd h (by simp)
    · exact absurd h (by simp)
    · rename_i out hout
      split at h
      · exact absurd h (by simp)
      · exact absurd h (by simp)
      · rename_i outRest houtRest
        simp only [Option.some.injEq, Except.ok.injEq] at h
        subst h
        obtain ⟨hw1, hw2⟩ := walk_tree_spec stream base ent (joinWalk path nm) out hout
        obtain ⟨hl1, hl2⟩ := walkList_spec stream base rest path outRest houtRest
        rw [entryFilesList]
        constructor
        · intro pb hpb
          rcases List.mem_append.mp hpb with hpb | hpb
          · rcases hw1 pb hpb with ⟨fe, hfe, hrest⟩
            exact ⟨fe, List.mem_append.mpr (Or.inl hfe), hrest⟩
          · rcases hl1 pb hpb with ⟨fe, hfe, hrest⟩
            exact ⟨fe, List.mem_append.mpr (Or.inr hfe), hrest⟩
        · intro fe hfe
          rcases List.mem_append.mp hfe with hfe | hfe
          · rcases hw2 fe hfe with ⟨off, data, h1, hb, h2, h3⟩
            exact ⟨off, data, h1, hb, h2, List.mem_append.mpr (Or.inl h3)⟩
          · rcases hl2 fe hfe with ⟨off, data, h1, hb, h2, h3⟩
            exact ⟨off, data, h1, hb, h2, List.mem_append.mpr (Or.inr h3)⟩

end

theorem parse_asar_eq (jp : List Nat → Option AsarEntry) (stream : List Nat)
    (hss ass : Nat) (h8 : readU32 stream 8 = some hss)
    (h12 : readU32 stream 12 = some ass) :
    parse_asar jp stream =
      match readSlice stream 16 ass with
      | none => some (.error "failed to read json header")
      | some buf =>
        match jp buf with
        | none => some (.error "malformed json header")
        | some rootEntry => walk_tree stream (8 + hss + 4) rootEntry [] := by
  have hlen := readU32_some_length h12
  rcases readU32_isSome_of_length (show 0 + 4 ≤ stream.length by omega) with ⟨v0, h0⟩
  rcases readU32_isSome_of_length (show 4 + 4 ≤ stream.length by omega) with ⟨v4, h4⟩
  rw [parse_asar, h0, h4, h8, h12]

theorem parse_asar_ok_spec (jp : List Nat → Option AsarEntry) (stream : List Nat)
    (hss ass : Nat) (root : AsarEntry) (t : FileTree)
    (h8 : readU32 stream 8 = some hss) (h12 : readU32 stream 12 = some ass)
    (hjp : jp ((stream.drop 16).take ass) = some root)
    (hok : parse_asar jp stream = some (.ok t)) :
    (∀ pb ∈ t, ∃ fe ∈ entryFiles root [], pb.1 = fe.1 ∧
      ∃ off, parseUsize fe.2.1 = some off ∧
        readSlice stream ((8 + hss + 4 + off) % 2 ^ 64) fe.2.2 = some pb.2) ∧
    (∀ fe ∈ entryFiles root [], ∃ off data, parseUsize fe.2.1 = some off ∧
      fe.2.2 < 2 ^ 63 ∧
      readSlice stream ((8 + hss + 4 + off) % 2 ^ 64) fe.2.2 = some data ∧
      (fe.1, data) ∈ t) := by
  rw [parse_asar_eq jp stream hss ass h8 h12] at hok
  cases hrs : readSlice stream 16 ass with
  | none => rw [hrs] at hok; exact absurd hok (by simp)
  | some buf =>
    rw [hrs, readSlice_eq_slice hrs] at hok
    simp only [hjp] at hok
    exact walk_tree_spec stream (8 + hss + 4) root [] t hok


/-- Claim C5 (amended): the decoder reads exactly `actual_string_size`
bytes as the JSON header blob — the parse result depends on the JSON
deserializer only through its value on the `actual_string_size`-byte slice
at stream offset 16 — and resolves every file payload by reading at the
u64-wrapped position `(base + offset) % 2 ^ 64` with
`base = 8 + header_string_size + 4`, which does not mention
`actual_string_size`.  The wrapped position equals `base + offset`
whenever that sum fits in 64 bits, but not for parseable offsets at least
`2 ^ 64 - base` (see the counterexample), so the claim's unconditional
"seeks to base + offset" is too strong. -/
theorem parse_asar_reads_header (stream : List Nat) (hss ass : Nat)
    (h8 : readU32 stream 8 = some hss) (h12 : readU32 stream 12 = some ass) :
    (∀ jp jp' : List Nat → Option AsarEntry,
      jp ((stream.drop 16).take ass) = jp' ((stream.drop 16).take ass) →
      parse_asar jp stream = parse_asar jp' stream) ∧
    (∀ (jp : List Nat → Option AsarEntry) (root : AsarEntry) (t : FileTree),
      jp ((stream.drop 16).take ass) = some root →
      parse_asar jp stream = some (.ok t) →
      ∀ pb ∈ t, ∃ fe ∈ entryFiles root [], pb.1 = fe.1 ∧
        ∃ off, parseUsize fe.2.1 = some off ∧
          readSlice stream ((8 + hss + 4 + off) % 2 ^ 64) fe.2.2 = some pb.2) := by
  constructor
  · intro jp jp' hagree
    rw [parse_asar_eq jp stream hss ass h8 h12, parse_asar_eq jp' stream hss ass h8 h12]
    cases hrs : readSlice stream 16 ass with
    | none => rfl
    | some buf =>
      have hbuf : buf = (stream.drop 16).take ass := readSlice_eq_slice hrs
      rw [hbuf]
      simp only [hagree]
  · intro jp root t hjp hok
    exact (parse_asar_ok_spec jp stream hss ass root t h8 h12 hjp hok).1

/-- Witness for C5: the spec scenario — `header_string_size = 100`,
`actual_string_size = 40`.  Two deserializers agreeing only on the 40-byte
slice at offset 16 give identical parses, and the parse succeeds with the
payload read at base `8 + 100 + 4 = 112`. -/
theorem parse_asar_reads_header_witness :
    parse_asar
        (fun bs => if bs = List.replicate 40 7
          then some (AsarEntry.Directory [("a".data, AsarEntry.File "0".data 3)])
          else none)
        ([0, 0, 0, 0, 0, 0, 0, 0, 100, 0, 0, 0, 40, 0, 0, 0] ++
          List.replicate 40 7 ++ List.replicate 56 0 ++ [9, 8, 7])
      = parse_asar
        (fun _ => some (AsarEntry.Directory [("a".data, AsarEntry.File "0".data 3)]))
        ([0, 0, 0, 0, 0, 0, 0, 0, 100, 0, 0, 0, 40, 0, 0, 0] ++
          List.replicate 40 7 ++ List.replicate 56 0 ++ [9, 8, 7]) :=
  (parse_asar_reads_header
      ([0, 0, 0, 0, 0, 0, 0, 0, 100, 0, 0, 0, 40, 0, 0, 0] ++
        List.replicate 40 7 ++ List.replicate 56 0 ++ [9, 8, 7]) 100 40 (by rfl) (by rfl)).1
    (fun bs => if bs = List.replicate 40 7
      then some (AsarEntry.Directory [("a".data, AsarEntry.File "0".data 3)])
      else none)
    (fun _ => some (AsarEntry.Directory [("a".data, AsarEntry.File "0".data 3)]))
    (by rfl)

/-- Counterexample to C5 as first stated: with `header_string_size = 0`
the payload base is `8 + 0 + 4 = 12`, and the offset string
`"18446744073709551604"` parses to `2 ^ 64 - 12`, so the release-build
`u64` sum `base as u64 + offset as u64` wraps to 0 and the decode
succeeds, returning the first two bytes `[7, 9]` of the stream — the
payload was not resolved by seeking to `base + offset = 2 ^ 64`, where no
read is possible (the unwrapped read fails on this 16-byte stream). -/
theorem parse_asar_seek_wrap_counterexample :
    parse_asar
        (fun _ => some (AsarEntry.Directory
          [("f".data, AsarEntry.File "18446744073709551604".data 2)]))
        [7, 9, 0, 0, 0, 0, 0, 0, 0, 0, 0, 0, 0, 0, 0, 0]
      = some (Except.ok [("f".data, [7, 9])]) ∧
    parseUsize "18446744073709551604".data = some (2 ^ 64 - 12) ∧
    readSlice [7, 9, 0, 0, 0, 0, 0, 0, 0, 0, 0, 0, 0, 0, 0, 0]
      (8 + 0 + 4 + (2 ^ 64 - 12)) 2 = none :=
  ⟨by rfl, by rfl, by rfl⟩

/-- Claim C6 (amended): `parse_asar` fails with an error on malformed
header JSON; on success every `File` entry of the header had a numeric
offset, a size no larger than `isize::MAX`, and an in-bounds payload read
at the u64-wrapped position `(base + offset) % 2 ^ 64` that landed in the
output (so a non-numeric offset forces a non-success, as does a payload
that is truncated at the wrapped position); and the result is exactly one
of: one complete tree, one error, or a panic — never a partial tree.  The
claim's unconditional "a seek/read past the end of the stream fails with
an error" is too strong: a wrapping offset can succeed with garbage and an
oversized declared size panics instead of erroring (see the
counterexample). -/
theorem parse_asar_failure_conditions (jp : List Nat → Option AsarEntry)
    (stream : List Nat) :
    (∀ hss ass, readU32 stream 8 = some hss → readU32 stream 12 = some ass →
      jp ((stream.drop 16).take ass) = none →
      ∃ e, parse_asar jp stream = some (Except.error e)) ∧
    (∀ (t : FileTree) (hss ass : Nat) (root : AsarEntry),
      parse_asar jp stream = some (Except.ok t) →
      readU32 stream 8 = some hss → readU32 stream 12 = some ass →
      jp ((stream.drop 16).take ass) = some root →
      ∀ fe ∈ entryFiles root [], ∃ off data, parseUsize fe.2.1 = some off ∧
        fe.2.2 < 2 ^ 63 ∧
        readSlice stream ((8 + hss + 4 + off) % 2 ^ 64) fe.2.2 = some data ∧
        (fe.1, data) ∈ t) ∧
    ((∃ t, parse_asar jp stream = some (Except.ok t)) ∨
      (∃ e, parse_asar jp stream = some (Except.error e)) ∨
      parse_asar jp stream = none) := by
  refine ⟨?_, ?_, ?_⟩
  · intro hss ass h8 h12 hjp
    rw [parse_asar_eq jp stream hss ass h8 h12]
    cases hrs : readSlice stream 16 ass with
    | none => exact ⟨_, rfl⟩
    | some buf =>
      rw [readSlice_eq_slice hrs]
      simp only [hjp]
      exact ⟨_, rfl⟩
  · intro t hss ass root hok h8 h12 hjp
    exact (parse_asar_ok_spec jp stream hss ass root t h8 h12 hjp hok).2
  · cases h : parse_asar jp stream with
    | none => exact Or.inr (Or.inr rfl)
    | some r =>
      cases r with
      | ok t => exact Or.inl ⟨t, rfl⟩
      | error e => exact Or.inr (Or.inl ⟨e, rfl⟩)

/-- Witness for C6: a 16-byte stream whose (empty) JSON blob the
deserializer rejects makes `parse_asar` return an error. -/
theorem parse_asar_failure_conditions_witness :
    ∃ e, parse_asar (fun _ => none)
      [0, 0, 0, 0, 0, 0, 0, 0, 0, 0, 0, 0, 0, 0, 0, 0] = some (Except.error e) :=
  (parse_asar_failure_conditions (fun _ => none)
    [0, 0, 0, 0, 0, 0, 0, 0, 0, 0, 0, 0, 0, 0, 0, 0]).1 0 0 (by rfl) (by rfl) (by rfl)

/-- Counterexample to C6 as first stated: a header-declared size of
`2 ^ 63` (above `isize::MAX`) is certainly a read past the end of this
16-byte stream, yet the decode does not fail with an error —
`vec![0; *size]` panics before the read, so `parse_asar` ends in a panic,
neither a tree nor a reported error. -/
theorem parse_asar_size_panic_counterexample :
    parse_asar
        (fun _ => some (AsarEntry.Directory
          [("f".data, AsarEntry.File "0".data (2 ^ 63))]))
        [0, 0, 0, 0, 0, 0, 0, 0, 0, 0, 0, 0, 0, 0, 0, 0]
      = none := by rfl

/-- Claim C10: for every successfully decoded archive, every entry of the
returned `FileTree` has content whose byte length equals exactly the `size`
field declared by the corresponding `File` entry of the JSON header. -/
theorem parse_asar_entry_sizes (jp : List Nat → Option AsarEntry) (stream : List Nat)
    (t : FileTree) (hss ass : Nat) (root : AsarEntry)
    (h8 : readU32 stream 8 = some hss) (h12 : readU32 stream 12 = some ass)
    (hjp : jp ((stream.drop 16).take ass) = some root)
    (hok : parse_asar jp stream = some (.ok t)) :
    ∀ pb ∈ t, ∃ fe ∈ entryFiles root [], pb.1 = fe.1 ∧ pb.2.length = fe.2.2 := by
  intro pb hpb
  rcases (parse_asar_ok_spec jp stream hss ass root t h8 h12 hjp hok).1 pb hpb with
    ⟨fe, hfe, h1, off, _, hread⟩
  exact ⟨fe, hfe, h1, readSlice_length hread⟩

/-- Witness for C10: a tiny archive with one 2-byte file declared at
offset 6 (payload base `8 + 0 + 4 = 12`); the decoded entry is two bytes
long, matching its declared size. -/
theorem parse_asar_entry_sizes_witness :
    ∃ fe ∈ entryFiles (AsarEntry.Directory [("f".data, AsarEntry.File "6".data 2)]) [],
      "f".data = fe.1 ∧ ([1, 2] : List Nat).length = fe.2.2 :=
  parse_asar_entry_sizes
    (fun bs => if bs = [5, 5]
      then some (AsarEntry.Directory [("f".data, AsarEntry.File "6".data 2)])
      else none)
    ([0, 0, 0, 0, 0, 0, 0, 0, 0, 0, 0, 0, 2, 0, 0, 0] ++ [5, 5] ++ [1, 2])
    [("f".data, [1, 2])] 0 2
    (AsarEntry.Directory [("f".data, AsarEntry.File "6".data 2)])
    (by rfl) (by rfl) (by rfl) (by rfl)
    ("f".data, [1, 2]) (List.mem_singleton.mpr rfl)



/-! ### Content diff engine error behaviour (C2, C8) -/

/-- Claim C8 (amended): `calculate_file_diff_inner` always returns `Ok` —
no pass failure ever aborts the overall diff; a failing structural pass
contributes no events (the result is the same as with an empty successful
structural pass); and each side's output is unaffected by the other side's
highlight tokenizer, so a failure in one pass never aborts the other.
(A failed highlight pass does, however, keep the events it pushed before
failing — see the counterexample.) -/
theorem calculate_file_diff_inner_best_effort :
    (∀ (oldStr newStr : List Char) (synFound : Bool)
      (tokOld tokNew : Nat → List Char → Except String (List (TokStyle × Nat)))
      (sd : Except String (List (Nat × Nat) × List (Nat × Nat))),
      (calculate_file_diff_inner oldStr newStr synFound tokOld tokNew sd).isOk = true) ∧
    (∀ (oldStr newStr : List Char) (synFound : Bool)
      (tokOld tokNew : Nat → List Char → Except String (List (TokStyle × Nat)))
      (e : String),
      calculate_file_diff_inner oldStr newStr synFound tokOld tokNew (Except.error e)
        = calculate_file_diff_inner oldStr newStr synFound tokOld tokNew
            (Except.ok ([], []))) ∧
    (∀ (oldStr newStr : List Char) (synFound : Bool)
      (tokOld tokOld' tokNew : Nat → List Char → Except String (List (TokStyle × Nat)))
      (sd : Except String (List (Nat × Nat) × List (Nat × Nat))),
      (calculate_file_diff_inner oldStr newStr synFound tokOld tokNew sd).map FileDiff.new
        = (calculate_file_diff_inner oldStr newStr synFound tokOld' tokNew sd).map
            FileDiff.new) ∧
    (∀ (oldStr newStr : List Char) (synFound : Bool)
      (tokOld tokNew tokNew' : Nat → List Char → Except String (List (TokStyle × Nat)))
      (sd : Except String (List (Nat × Nat) × List (Nat × Nat))),
      (calculate_file_diff_inner oldStr newStr synFound tokOld tokNew sd).map FileDiff.old
        = (calculate_file_diff_inner oldStr newStr synFound tokOld tokNew' sd).map
            FileDiff.old) := by
  refine ⟨?_, ?_, ?_, ?_⟩
  · intro oldStr newStr synFound tokOld tokNew sd
    rfl
  · intro oldStr newStr synFound tokOld tokNew e
    rfl
  · intro oldStr newStr synFound tokOld tokOld' tokNew sd
    rfl
  · intro oldStr newStr synFound tokOld tokNew tokNew' sd
    rfl

/-- Claim C8 counterexample: a highlight pass that pushes a `SetBold` event
on line 0 and then fails on line 1 is *not* treated as contributing no
events — its partial event survives into the output (`old_commands` keeps
everything pushed before the error), so the diff is not built from the
succeeding passes alone. -/
theorem calculate_file_diff_inner_partial_events_counterexample :
    (do_syntax_highlighting true
        (fun i _ => if i = 0
          then Except.ok [(⟨true, false, false, ⟨0, 0, 0, 0⟩⟩, 0)]
          else Except.error "parse")
        ('a' :: '\n' :: 'b' :: [])).2.isSome = true ∧
    calculate_file_diff_inner ('a' :: '\n' :: 'b' :: []) ('x' :: []) true
        (fun i _ => if i = 0
          then Except.ok [(⟨true, false, false, ⟨0, 0, 0, 0⟩⟩, 0)]
          else Except.error "parse")
        (fun _ _ => Except.ok []) (Except.ok ([], []))
      = Except.ok ⟨[⟨0, DiffRenderCommand.SetBold true⟩,
          ⟨0, DiffRenderCommand.Text ('a' :: '\n' :: 'b' :: [])⟩],
        [⟨0, DiffRenderCommand.Text ('x' :: [])⟩]⟩ :=
  ⟨rfl, rfl⟩

/-- Claim C2 (amended): `calculate_file_diff` throws errors rather than
falling back in three cases — a missing file extension, and a read/decode
failure of either file (including the single-sided branches, which
propagate read errors); when both reads succeed it always returns
renderable fragments, because the inner two-pass comparison never fails
(making the whole-file raw-text fallback branch unreachable); and the
single-sided branch degrades to one raw `Text` fragment when its highlight
pass fails. -/
theorem calculate_file_diff_error_behaviour :
    (∀ (oldExists newExists : Bool) (oldRead newRead : Except String (List Char))
      (synFound : Bool)
      (tokOld tokNew : Nat → List Char → Except String (List (TokStyle × Nat)))
      (sd : Except String (List (Nat × Nat) × List (Nat × Nat))),
      calculate_file_diff none oldExists newExists oldRead newRead synFound
          tokOld tokNew sd
        = Except.error "no file extension") ∧
    (∀ (ext : Path) (e : String) (newRead : Except String (List Char)) (synFound : Bool)
      (tokOld tokNew : Nat → List Char → Except String (List (TokStyle × Nat)))
      (sd : Except String (List (Nat × Nat) × List (Nat × Nat))),
      calculate_file_diff (some ext) true true (Except.error e) newRead synFound
          tokOld tokNew sd
        = Except.error e) ∧
    (∀ (ext : Path) (oldStr : List Char) (e : String) (synFound : Bool)
      (tokOld tokNew : Nat → List Char → Except String (List (TokStyle × Nat)))
      (sd : Except String (List (Nat × Nat) × List (Nat × Nat))),
      calculate_file_diff (some ext) true true (Except.ok oldStr) (Except.error e)
          synFound tokOld tokNew sd
        = Except.error e) ∧
    (∀ (ext : Path) (oldStr newStr : List Char) (synFound : Bool)
      (tokOld tokNew : Nat → List Char → Except String (List (TokStyle × Nat)))
      (sd : Except String (List (Nat × Nat) × List (Nat × Nat))),
      (calculate_file_diff (some ext) true true (Except.ok oldStr) (Except.ok newStr)
          synFound tokOld tokNew sd).isOk = true) ∧
    (∀ (ext : Path) (newExists : Bool) (src : List Char)
      (oldRead : Except String (List Char))
      (tokOld tokNew : Nat → List Char → Except String (List (TokStyle × Nat)))
      (sd : Except String (List (Nat × Nat) × List (Nat × Nat))),
      calculate_file_diff (some ext) false newExists oldRead (Except.ok src) false
          tokOld tokNew sd
        = Except.ok ⟨[], [⟨0, DiffRenderCommand.Text src⟩]⟩) := by
  refine ⟨?_, ?_, ?_, ?_, ?_⟩
  · intro oldExists newExists oldRead newRead synFound tokOld tokNew sd
    rfl
  · intro ext e newRead synFound tokOld tokNew sd
    rfl
  · intro ext oldStr e synFound tokOld tokNew sd
    rfl
  · intro ext oldStr newStr synFound tokOld tokNew sd
    rfl
  · intro ext newExists src oldRead tokOld tokNew sd
    rfl

/-- Claim C2 counterexample: with both files present but the old file not
decodable as text, `calculate_file_diff` propagates the read error — a
thrown failure — instead of degrading to a single raw `Text` fragment per
side. -/
theorem calculate_file_diff_throws_counterexample :
    calculate_file_diff (some ('t' :: [])) true true
        (Except.error "stream did not contain valid UTF-8") (Except.ok ('x' :: []))
        true (fun _ _ => Except.ok []) (fun _ _ => Except.ok []) (Except.ok ([], []))
      = Except.error "stream did not contain valid UTF-8" := rfl

end Robojules
